import Mathlib

/-!
Verification of the sequence composition and dual-store synchronization logic
of the recursive-creator repository.

The relevant program logic lives in `src/app/dashboard/page.tsx` (the URL
classifier/normalizer, the proxy-wrap codec, the bulk/folder import handlers,
the reorder and save handlers, and the project-list delete handler) and in
`src/app/api/extract-playlist/route.ts` (the ISO-8601 duration parser).

Strings are embedded as `List Char`, one entry per UTF-16-ish code point; all
inputs the theorems range over are ASCII, where this coincides with JavaScript
string indexing.  The few JavaScript regexes the code uses all have the shape
"literal followed by a greedy nonempty character class capture", or are plain
anchored tests; they are embedded by an executable leftmost-match scanner
(`findCaptureAlt`) that mirrors the backtracking behaviour of such regexes:
at each start position the alternatives are tried in order, a match requires
the literal followed by at least one character of the class, and the capture
is the maximal (greedy) run of class characters.
-/

/-! ### Character classes (by ASCII code, with the JS class in the comment) -/

/-- Class `\d`: codes 48..57 are the digits 0..9. -/
def isDigitCh (c : Char) : Bool :=
  48 ≤ c.toNat && c.toNat ≤ 57

/-- Class `\s` (ASCII part) as used by `String.prototype.trim` and `\s*`:
tab 9, LF 10, VT 11, FF 12, CR 13, space 32. -/
def isWSCh (c : Char) : Bool :=
  c.toNat = 32 || c.toNat = 9 || c.toNat = 10 || c.toNat = 11 || c.toNat = 12 || c.toNat = 13

/-- Class `[a-zA-Z0-9_-]` from the bare-video-id pattern: lowercase 97..122,
uppercase 65..90, digits 48..57, underscore 95, hyphen 45. -/
def isIdCh (c : Char) : Bool :=
  (97 ≤ c.toNat && c.toNat ≤ 122) || (65 ≤ c.toNat && c.toNat ≤ 90) ||
    (48 ≤ c.toNat && c.toNat ≤ 57) || c.toNat = 95 || c.toNat = 45

/-- Class `[^&\n?#]` from the YouTube id patterns: everything except
ampersand 38, LF 10, question mark 63, hash 35. -/
def ytCls (c : Char) : Bool :=
  !(c.toNat = 38 || c.toNat = 10 || c.toNat = 63 || c.toNat = 35)

/-- Class `[^\/]` from the Drive file pattern: everything except slash 47. -/
def notSlash (c : Char) : Bool :=
  !(c.toNat = 47)

/-- Class `[^&]` from the Drive open?id pattern: everything except 38. -/
def notAmp (c : Char) : Bool :=
  !(c.toNat = 38)

/-- Class `.` of an unanchored `(.+)` capture: everything except LF 10. -/
def notNL (c : Char) : Bool :=
  !(c.toNat = 10)

/-- Separator class `[\n,]` of the bulk-import split: LF 10 and comma 44. -/
def isSepCh (c : Char) : Bool :=
  c.toNat = 10 || c.toNat = 44

/-! ### List-of-characters utilities shared by the embedded functions -/

/-- Boolean test that the first list is a leading segment of the second. -/
def isPref : List Char → List Char → Bool
  | [], _ => true
  | _ :: _, [] => false
  | a :: x, b :: y => if a = b then isPref x y else false

/-- Case-insensitive variant of `isPref` (the `i` regex flag, ASCII folding). -/
def isPrefCI : List Char → List Char → Bool
  | [], _ => true
  | _ :: _, [] => false
  | a :: x, b :: y => if a.toLower = b.toLower then isPrefCI x y else false

/-- Boolean test that one of the two lists is a leading segment of the other
(no mismatch within the common length). -/
def headAgree : List Char → List Char → Bool
  | [], _ => true
  | _, [] => true
  | a :: x, b :: y => if a = b then headAgree x y else false

/-- Substring test, `String.prototype.includes`. -/
def containsSub (pat : List Char) : List Char → Bool
  | [] => isPref pat []
  | s@(_ :: rest) => isPref pat s || containsSub pat rest

/-- At one start position, try each alternative literal in order; a hit needs
the literal followed by a nonempty greedy run of class characters, which is
the capture. -/
def capAt (cls : Char → Bool) : List (List Char) → List Char → Option (List Char)
  | [], _ => none
  | lit :: more, s =>
    let cap := (s.drop lit.length).takeWhile cls
    if isPref lit s ∧ cap ≠ [] then some cap else capAt cls more s

/-- Leftmost-match scan of a JS regex `/(?:lit₁|lit₂|...)([cls]+)/`: the
capture at the first start position where some alternative matches. -/
def findCaptureAlt (lits : List (List Char)) (cls : Char → Bool) : List Char → Option (List Char)
  | [] => none
  | s@(_ :: rest) =>
    match capAt cls lits s with
    | some cap => some cap
    | none => findCaptureAlt lits cls rest

/-- The two-sided whitespace trim, `String.prototype.trim` (ASCII inputs). -/
def trimL (s : List Char) : List Char :=
  ((s.dropWhile isWSCh).reverse.dropWhile isWSCh).reverse

/-- Split at every separator character.  The source splits on `/[\n,]+/`
(runs of separators); a run here yields empty pieces instead, and every use
immediately filters out pieces that are empty after trimming, so the two
readings produce the same final line list. -/
def splitSep : List Char → List (List Char)
  | [] => [[]]
  | c :: rest =>
    match splitSep rest with
    | [] => [[]]
    | cur :: done => if isSepCh c then [] :: cur :: done else (c :: cur) :: done

/-- Join with newlines, `Array.prototype.join('\n')`. -/
def joinNL : List (List Char) → List Char
  | [] => []
  | [l] => l
  | l :: rest => l ++ '\n' :: joinNL rest

/-- The sixteen uppercase hexadecimal digit characters. -/
def hexChars : List Char :=
  ['0', '1', '2', '3', '4', '5', '6', '7', '8', '9', 'A', 'B', 'C', 'D', 'E', 'F']

/-- Hexadecimal digit character for a value below 16. -/
def hexDigitCh (n : Nat) : Char :=
  hexChars.getD n '0'

/-- Value of a hexadecimal digit character, upper or lower case. -/
def hexVal (c : Char) : Option Nat :=
  if 48 ≤ c.toNat ∧ c.toNat ≤ 57 then some (c.toNat - 48)
  else if 65 ≤ c.toNat ∧ c.toNat ≤ 70 then some (c.toNat - 55)
  else if 97 ≤ c.toNat ∧ c.toNat ≤ 102 then some (c.toNat - 87)
  else none

/-- Fuel-driven helper for the decimal representation: the fuel only makes
the recursion structural and never runs out when it starts above `n`. -/
def decReprAux : Nat → Nat → List Char
  | 0, _ => []
  | fuel + 1, n =>
    if n < 10 then [hexDigitCh n]
    else decReprAux fuel (n / 10) ++ [hexDigitCh (n % 10)]

/-- Decimal digit list of a natural number, most significant first (the
decimal form that JavaScript template interpolation and `parseInt` use). -/
def decRepr (n : Nat) : List Char :=
  decReprAux (n + 1) n

/-- Numeric value of a digit list, `parseInt` on a digit-only string. -/
def digitsVal (ds : List Char) : Nat :=
  ds.foldl (fun a c => 10 * a + (c.toNat - 48)) 0

/-- Characters `encodeURIComponent` leaves unescaped: alphanumerics and
`- 45  _ 95  . 46  ! 33  ~ 126  * 42  ' 39  ( 40  ) 41`. -/
def isUnreservedCh (c : Char) : Bool :=
  (97 ≤ c.toNat && c.toNat ≤ 122) || (65 ≤ c.toNat && c.toNat ≤ 90) ||
    (48 ≤ c.toNat && c.toNat ≤ 57) || c.toNat = 45 || c.toNat = 95 || c.toNat = 46 ||
    c.toNat = 33 || c.toNat = 126 || c.toNat = 42 || c.toNat = 39 || c.toNat = 40 ||
    c.toNat = 41

/-- JavaScript `encodeURIComponent`, faithful for ASCII inputs (code points
below 128, where one character is one UTF-8 byte escaped as `%XX`). -/
def encodeURIComponent : List Char → List Char
  | [] => []
  | c :: rest =>
    if isUnreservedCh c then c :: encodeURIComponent rest
    else '%' :: hexDigitCh (c.toNat / 16) :: hexDigitCh (c.toNat % 16) :: encodeURIComponent rest

/-- JavaScript `decodeURIComponent` on well-formed input.  (On a malformed
`%` sequence the browser throws; this total model keeps such a `%` verbatim
instead.  Every use in this file decodes an `encodeURIComponent` image, which
is always well formed, so the two agree on all inputs that actually occur.) -/
def decodeURIComponent : List Char → List Char
  | [] => []
  | '%' :: h1 :: h2 :: rest =>
    match hexVal h1, hexVal h2 with
    | some a, some b => Char.ofNat (16 * a + b) :: decodeURIComponent rest
    | _, _ => '%' :: decodeURIComponent (h1 :: h2 :: rest)
  | c :: rest => c :: decodeURIComponent rest

/-! ### Pattern literals of the source regexes (string shown in the comment) -/

/-- Literal "drive.google.com/file/d/" of the first Drive pattern. -/
def drivePat1 : List Char :=
  ['d', 'r', 'i', 'v', 'e', '.', 'g', 'o', 'o', 'g', 'l', 'e', '.', 'c', 'o', 'm', '/',
    'f', 'i', 'l', 'e', '/', 'd', '/']

/-- Literal "drive.google.com/open?id=" of the second Drive pattern. -/
def drivePat2 : List Char :=
  ['d', 'r', 'i', 'v', 'e', '.', 'g', 'o', 'o', 'g', 'l', 'e', '.', 'c', 'o', 'm', '/',
    'o', 'p', 'e', 'n', '?', 'i', 'd', '=']

/-- Canonical Drive direct-view base "https://drive.google.com/uc?export=view&id=". -/
def driveUcBase : List Char :=
  ['h', 't', 't', 'p', 's', ':', '/', '/', 'd', 'r', 'i', 'v', 'e', '.', 'g', 'o', 'o',
    'g', 'l', 'e', '.', 'c', 'o', 'm', '/', 'u', 'c', '?', 'e', 'x', 'p', 'o', 'r', 't',
    '=', 'v', 'i', 'e', 'w', '&', 'i', 'd', '=']

/-- Literal "youtube.com/watch?v=" (first YouTube alternative). -/
def ytWatchPat : List Char :=
  ['y', 'o', 'u', 't', 'u', 'b', 'e', '.', 'c', 'o', 'm', '/', 'w', 'a', 't', 'c', 'h',
    '?', 'v', '=']

/-- Literal "youtu.be/" (second YouTube alternative). -/
def ytBePat : List Char :=
  ['y', 'o', 'u', 't', 'u', '.', 'b', 'e', '/']

/-- Literal "youtube.com/embed/" (third YouTube alternative). -/
def ytEmbedPat : List Char :=
  ['y', 'o', 'u', 't', 'u', 'b', 'e', '.', 'c', 'o', 'm', '/', 'e', 'm', 'b', 'e', 'd', '/']

/-- Literal "youtube.com/shorts/" (the YouTube Shorts pattern). -/
def ytShortsPat : List Char :=
  ['y', 'o', 'u', 't', 'u', 'b', 'e', '.', 'c', 'o', 'm', '/', 's', 'h', 'o', 'r', 't',
    's', '/']

/-- Substring "youtube.com" tested by `detectUrlType`. -/
def ytComSub : List Char :=
  ['y', 'o', 'u', 't', 'u', 'b', 'e', '.', 'c', 'o', 'm']

/-- Substring "youtu.be" tested by `detectUrlType`. -/
def ytBeSub : List Char :=
  ['y', 'o', 'u', 't', 'u', '.', 'b', 'e']

/-- Substring "drive.google.com" tested by `detectUrlType` and the import
handlers. -/
def driveSub : List Char :=
  ['d', 'r', 'i', 'v', 'e', '.', 'g', 'o', 'o', 'g', 'l', 'e', '.', 'c', 'o', 'm']

/-- Manual override "video:" (matched case-insensitively). -/
def vidPre : List Char :=
  ['v', 'i', 'd', 'e', 'o', ':']

/-- Manual override "image:" (matched case-insensitively). -/
def imgPre : List Char :=
  ['i', 'm', 'a', 'g', 'e', ':']

/-- Proxy relay base "/api/proxy-image?url=". -/
def proxyPat : List Char :=
  ['/', 'a', 'p', 'i', '/', 'p', 'r', 'o', 'x', 'y', '-', 'i', 'm', 'a', 'g', 'e', '?',
    'u', 'r', 'l', '=']

/-- YouTube watch base "https://youtube.com/watch?v=" used by export. -/
def watchBase : List Char :=
  ['h', 't', 't', 'p', 's', ':', '/', '/', 'y', 'o', 'u', 't', 'u', 'b', 'e', '.', 'c',
    'o', 'm', '/', 'w', 'a', 't', 'c', 'h', '?', 'v', '=']

/-! ### URL classifier/normalizer (src/app/dashboard/page.tsx:1300-1377) -/

/-- Embedding of `convertGoogleDriveUrl` (page.tsx:1300-1314): try the two
Drive patterns in order; on the first match rewrite to the direct-view form
with the captured id, otherwise return the URL unchanged. -/
def convertGoogleDriveUrl (url : List Char) : List Char :=
  match findCaptureAlt [drivePat1] notSlash url with
  | some id => driveUcBase ++ id
  | none =>
    match findCaptureAlt [drivePat2] notAmp url with
    | some id => driveUcBase ++ id
    | none => url

/-- Embedding of `convertGoogleDriveVideoUrl` (page.tsx:1316-1331): same two
patterns, but the bare captured file id is returned (videos are embedded by
id, not rewritten). -/
def convertGoogleDriveVideoUrl (url : List Char) : List Char :=
  match findCaptureAlt [drivePat1] notSlash url with
  | some id => id
  | none =>
    match findCaptureAlt [drivePat2] notAmp url with
    | some id => id
    | none => url

/-- Embedding of `extractYouTubeId` (page.tsx:1333-1348).  The third source
pattern `/^([a-zA-Z0-9_-]{11})$/` captures the whole input, so its branch
returns the input itself, exactly like the final fallback `return url`. -/
def extractYouTubeId (url : List Char) : List Char :=
  match findCaptureAlt [ytWatchPat, ytBePat, ytEmbedPat] ytCls url with
  | some v => v
  | none =>
    match findCaptureAlt [ytShortsPat] ytCls url with
    | some v => v
    | none =>
      if url.length = 11 ∧ url.all isIdCh then url else url

/-- Item type discriminator of the `SequenceItem` union. -/
inductive ItemType where
  | image
  | video
deriving DecidableEq, Repr

/-- Result of `detectUrlType`: the detected type and the processed URL. -/
structure UrlClass where
  type : ItemType
  processedUrl : List Char
deriving DecidableEq, Repr

/-- Match of `/^video:\s*(.+)/i` style override patterns against an already
trimmed string: the literal case-insensitively at the start, optional
whitespace, then a nonempty greedy non-newline capture, which the source
trims (`match[1].trim()`).  `detectUrlType` trims before matching, so the
remainder after the literal is never all-whitespace-with-newline and the
regex backtracking corner of `\s*(.+)` cannot arise. -/
def stripTypePre (pre : List Char) (t : List Char) : Option (List Char) :=
  if isPrefCI pre t then
    let cap := ((t.drop pre.length).dropWhile isWSCh).takeWhile notNL
    if cap ≠ [] then some (trimL cap) else none
  else none

/-- Embedding of `detectUrlType` (page.tsx:1350-1377): trim, check the manual
`video:` / `image:` overrides, then sniff YouTube and Drive substrings;
everything else defaults to image.  (In the source the Drive branch and the
default branch both return `{type: image, processedUrl: trimmedUrl}`.) -/
def detectUrlType (url : List Char) : UrlClass :=
  let t := trimL url
  match stripTypePre vidPre t with
  | some rest => ⟨.video, rest⟩
  | none =>
    match stripTypePre imgPre t with
    | some rest => ⟨.image, rest⟩
    | none =>
      if containsSub ytComSub t || containsSub ytBeSub t then ⟨.video, t⟩
      else if containsSub driveSub t then ⟨.image, t⟩
      else ⟨.image, t⟩

/-! ### Sequence item model (page.tsx:860-881) -/

/-- Embedding of the `SequenceItem` interface.  Optional fields of the
TypeScript record (`image_url?: string` and friends) are embedded with the
default `[]` / `0`, matching the falsiness tests (`item.url`,
`item.image_url && ...`) the handlers use on them. -/
structure SequenceItem where
  position : Nat
  type : ItemType
  image_url : List Char := []
  alt_text : List Char := []
  narration : List Char := []
  video_id : List Char := []
  url : List Char := []
  title : List Char := []
  creator : List Char := []
  thumbnail : List Char := []
  duration_seconds : Nat := 0
deriving DecidableEq, Repr

/-- Embedding of the `VideoMetadata` interface (page.tsx:876-881). -/
structure VideoMetadata where
  title : List Char
  creator : List Char
  thumbnail : List Char
  duration_seconds : Nat
deriving DecidableEq, Repr

/-- The `videoMetadata` React state, a `Map<string, VideoMetadata>`,
embedded as an association list with `Map.prototype.get` lookup. -/
def lookupMeta (m : List (List Char × VideoMetadata)) (k : List Char) : Option VideoMetadata :=
  (m.find? (fun p => p.1 == k)).map (·.2)

/-- The hard document cap (page.tsx:856): `const MAX_ITEMS = 50`. -/
def MAX_ITEMS : Nat := 50

/-- The `forEach` renumbering loop `item.position = i + 1` that every
mutating handler runs, generalized over the starting number. -/
def renumberFrom (k : Nat) : List SequenceItem → List SequenceItem
  | [] => []
  | it :: rest => { it with position := k } :: renumberFrom (k + 1) rest

/-- Renumber a list so positions read 1, 2, …, length. -/
def renumber (l : List SequenceItem) : List SequenceItem :=
  renumberFrom 1 l

/-! ### Reorder, move and delete handlers (page.tsx:1668-1740) -/

/-- Modelled from the spec: the drag handler calls dnd-kit's `arrayMove`, a
"contiguous array move" (spec section 4.4) whose source is not part of this
repository: copy the array, splice the element out of the source index and
splice it back in at the target index (`Array.prototype.splice` clamps an
overlong insertion index to the end).  A source index beyond the array, which
the sortable UI never produces (card ids are the indices of existing items),
leaves the list unchanged here. -/
def arrayMove (l : List SequenceItem) (src : Nat) (dst : Nat) : List SequenceItem :=
  match l.get? src with
  | none => l
  | some x => (l.eraseIdx src).insertIdx (min dst (l.length - 1)) x

/-- Embedding of `handleDragEnd` (page.tsx:1668-1686): when a drop target
exists and differs from the dragged id, `arrayMove` then renumber; otherwise
the items are left untouched.  The dnd-kit ids are the item indices parsed
with `parseInt`. -/
def handleDragEnd (activeId : Nat) (overId : Option Nat) (items : List SequenceItem) :
    List SequenceItem :=
  match overId with
  | none => items
  | some n => if activeId ≠ n then renumber (arrayMove items activeId n) else items

/-- Embedding of `handleMoveToPosition` (page.tsx:1719-1734): guard on a
selected index and a target within 1..length, splice the selected item out,
splice it back in at `target - 1`, renumber.  (A selected index beyond the
array, which `handlePositionClick` never produces, leaves the list
unchanged.) -/
def handleMoveToPosition (selectedItemIndex : Option Nat) (targetPosition : Nat)
    (items : List SequenceItem) : List SequenceItem :=
  match selectedItemIndex with
  | none => items
  | some i =>
    if targetPosition < 1 || targetPosition > items.length then items
    else
      match items.get? i with
      | none => items
      | some x => renumber ((items.eraseIdx i).insertIdx (targetPosition - 1) x)

/-- Embedding of `handleDeleteItem` (page.tsx:1736-1740): the filter
`(_, i) => i !== index` removes exactly the element at that index, then the
remaining items are renumbered. -/
def handleDeleteItem (index : Nat) (items : List SequenceItem) : List SequenceItem :=
  renumber (items.eraseIdx index)

/-- Positions read exactly 1..N in list order: dense, no gaps, no
duplicates. -/
def densePositionsB (l : List SequenceItem) : Bool :=
  l.map (·.position) == List.range' 1 l.length

/-! ### Import handlers (page.tsx:1379-1446 and 1558-1632) -/

/-- Result of an import handler: the new value of the `items` state plus the
message passed to `setError` (the handlers use it for both the rejection
error and the success note). -/
structure ImportResult where
  items : List SequenceItem
  message : Option (List Char)
deriving DecidableEq, Repr

/-- The count-aware rejection message of `handleImportFromModal`
(page.tsx:1571). -/
def capMessage (existing newCount : Nat) : List Char :=
  "Maximum ".toList ++ decRepr MAX_ITEMS ++ " items allowed. You have ".toList ++
    decRepr existing ++ " existing items and ".toList ++ decRepr newCount ++
    " new URLs = ".toList ++ decRepr (existing + newCount) ++ " total.".toList

/-- One iteration of the `lines.forEach` body of `handleImportFromModal`
(page.tsx:1578-1621): classify the line, then branch on provider for videos;
an unknown video provider produces no item (skipped with a console warning).
`index` is the line index in the `lines` array, so a skip leaves a hole in
the assigned positions. -/
def modalItemForLine (meta : List (List Char × VideoMetadata)) (startPosition index : Nat)
    (line : List Char) : Option SequenceItem :=
  let uc := detectUrlType line
  match uc.type with
  | .video =>
    if containsSub ytComSub uc.processedUrl || containsSub ytBeSub uc.processedUrl then
      let videoId := extractYouTubeId uc.processedUrl
      let md := lookupMeta meta uc.processedUrl
      some { position := startPosition + index + 1, type := .video, video_id := videoId,
             url := uc.processedUrl,
             title := (md.map (·.title)).getD [],
             creator := (md.map (·.creator)).getD [],
             thumbnail := (md.map (·.thumbnail)).getD [],
             duration_seconds := (md.map (·.duration_seconds)).getD 0 }
    else if containsSub driveSub uc.processedUrl then
      some { position := startPosition + index + 1, type := .video,
             video_id := convertGoogleDriveVideoUrl uc.processedUrl,
             url := uc.processedUrl, title := [] }
    else none
  | .image =>
    some { position := startPosition + index + 1, type := .image,
           image_url := convertGoogleDriveUrl uc.processedUrl,
           alt_text := [], narration := [] }

/-- The `forEach`-with-`push` accumulation: apply an index-aware partial item
constructor to each element, keeping the hits; the index advances on skipped
elements too. -/
def mapIdxOpt {α β : Type} (f : Nat → α → Option β) : Nat → List α → List β
  | _, [] => []
  | i, a :: rest =>
    match f i a with
    | some b => b :: mapIdxOpt f (i + 1) rest
    | none => mapIdxOpt f (i + 1) rest

/-- Embedding of `handleImportFromModal` (page.tsx:1558-1632): an
all-whitespace textarea is a silent no-op; otherwise split the input on
newlines/commas, reject the whole import with the count-aware message when
existing + new would exceed `MAX_ITEMS` (the items are left untouched), else
build the new items and append them to the existing list. -/
def handleImportFromModal (meta : List (List Char × VideoMetadata))
    (items : List SequenceItem) (modalBulkUrls : List Char) : ImportResult :=
  if trimL modalBulkUrls = [] then ⟨items, none⟩
  else
    let lines := (splitSep modalBulkUrls).filter (fun l => trimL l ≠ [])
    if items.length + lines.length > MAX_ITEMS then
      ⟨items, some (capMessage items.length lines.length)⟩
    else
      let newItems := mapIdxOpt (modalItemForLine meta items.length) 0 lines
      ⟨items ++ newItems, some ("✅ Imported ".toList ++ decRepr newItems.length ++ " items!".toList)⟩

/-- One entry of the Drive folder listing returned by the
`/api/import-drive-folder` route (`data.files`). -/
structure DriveFile where
  url : List Char
  name : List Char
  mimeType : List Char
deriving DecidableEq, Repr

/-- One iteration of the `data.files.forEach` body of
`handleImportDriveFolder` (page.tsx:1405-1429): classify, push a Drive video
(by file id, titled with the Drive file name) or an image (alt-texted with
the file name); a video from outside Drive produces no item. -/
def driveItemForFile (startPosition index : Nat) (f : DriveFile) : Option SequenceItem :=
  let uc := detectUrlType f.url
  match uc.type with
  | .video =>
    if containsSub driveSub uc.processedUrl then
      some { position := startPosition + index + 1, type := .video,
             video_id := convertGoogleDriveVideoUrl uc.processedUrl,
             url := uc.processedUrl, title := f.name }
    else none
  | .image =>
    some { position := startPosition + index + 1, type := .image,
           image_url := convertGoogleDriveUrl uc.processedUrl,
           alt_text := f.name, narration := [] }

/-- Embedding of the append phase of `handleImportDriveFolder`
(page.tsx:1401-1439), after the folder listing has been fetched: build items
from the files and append them to the existing list.  The handler performs no
`MAX_ITEMS` check on this path; the success message interpolates the
server-reported count, which equals the number of listed files. -/
def handleImportDriveFolder (items : List SequenceItem) (files : List DriveFile) :
    ImportResult :=
  let newItems := mapIdxOpt (driveItemForFile items.length) 0 files
  ⟨items ++ newItems, some ("✅ Imported ".toList ++ decRepr files.length ++ " files!".toList)⟩

/-! ### Export (page.tsx:1634-1666) -/

/-- Per-item URL reconstruction of `handleExportLinks` (page.tsx:1641-1654):
videos prefer the stored original `url`, else an 11-character id becomes a
full YouTube watch URL, else a Drive file URL; images export the stored
`image_url`. -/
def exportUrl (it : SequenceItem) : List Char :=
  match it.type with
  | .video =>
    if it.url ≠ [] then it.url
    else if it.video_id ≠ [] ∧ it.video_id.length = 11 then watchBase ++ it.video_id
    else "https://drive.google.com/file/d/".toList ++ it.video_id ++ "/view".toList
  | .image => it.image_url

/-- Embedding of the text built by `handleExportLinks` (page.tsx:1634-1657):
the per-item URLs, empties filtered out, joined with newlines.  (The handler
then only copies this text to the clipboard or shows it in the modal.) -/
def handleExportLinks (items : List SequenceItem) : List Char :=
  joinNL ((items.map exportUrl).filter (fun u => u ≠ []))

/-! ### Save validation and persistence (page.tsx:1748-1803) -/

/-- Validity filter of `handleSaveDraft` (page.tsx:1755-1761): an image needs
a non-empty (after trim) `image_url`, a video a non-empty `video_id`. -/
def isValidItem (it : SequenceItem) : Bool :=
  match it.type with
  | .image => !(trimL it.image_url).isEmpty
  | .video => !(trimL it.video_id).isEmpty

/-- The slice of the `document_data` payload that the save claims are about
(title, persisted items, publish flag); description and the attribution
fields are carried along by the source identically and do not bear on the
claims. -/
structure SavedDocument where
  title : List Char
  items : List SequenceItem
  is_published : Bool
deriving DecidableEq, Repr

/-- Embedding of the validation and payload construction of
`handleSaveDraft` (page.tsx:1748-1803).  An `Except.error` is an early
`return` taken before the store is contacted (nothing written); `Except.ok`
is the `document_data` written by the single update/insert call, whose
`items` field is the filtered `validItems` array in both modes. -/
def handleSaveDraft (title : List Char) (items : List SequenceItem) (shouldPublish : Bool) :
    Except (List Char) SavedDocument :=
  if (trimL title).isEmpty then .error "Title is required".toList
  else
    let validItems := items.filter isValidItem
    if validItems.isEmpty then .error "At least one item with content is required".toList
    else .ok { title := trimL title, items := validItems, is_published := shouldPublish }

/-! ### Proxy-wrap codec (page.tsx:487-496 wraps, 1256-1277 unwraps) -/

/-- The wrap of `handleSaveDraft` in the legacy editor (page.tsx:492):
`/api/proxy-image?url=${encodeURIComponent(url)}`. -/
def wrapImageUrl (u : List Char) : List Char :=
  proxyPat ++ encodeURIComponent u

/-- The on-load cleanup of `loadSequence` (page.tsx:1260-1273): match
`/\/api\/proxy-image\?url=(.+)/`, decode the capture, and if the decoded
value matches the proxy pattern again decode once more; a non-matching URL is
returned unchanged. -/
def unwrapImageUrl (u : List Char) : List Char :=
  match findCaptureAlt [proxyPat] notNL u with
  | none => u
  | some cap =>
    let innerUrl := decodeURIComponent cap
    match findCaptureAlt [proxyPat] notNL innerUrl with
    | none => innerUrl
    | some icap => decodeURIComponent icap

/-! ### ISO-8601 duration parser (src/app/api/extract-playlist/route.ts:134-146) -/

/-- Leftmost occurrence of the literal "PT": the remainder after it, if any.
The source regex `/PT(?:(\d+)H)?(?:(\d+)M)?(?:(\d+)S)?/` is unanchored and
all three groups are optional, so it matches at the first "PT". -/
def findPT : List Char → Option (List Char)
  | [] => none
  | s@(_ :: rest) => if isPref ['P', 'T'] s then some (s.drop 2) else findPT rest

/-- One optional group `(?:(\d+)X)?`: it participates exactly when a
nonempty digit run is immediately followed by the marker (a shorter run
would end on a digit, so greedy backtracking never helps); on a hit return
the run's value and the remainder after the marker, on a miss consume
nothing. -/
def tryNumGroup (marker : Char) (s : List Char) : Option Nat × List Char :=
  let ds := s.takeWhile isDigitCh
  let rest := s.drop ds.length
  if ds ≠ [] ∧ rest.head? = some marker then (some (digitsVal ds), rest.tail)
  else (none, s)

/-- Embedding of `parseDuration` (route.ts:134-146): `parseInt(g) || 0` per
group, combined as hours·3600 + minutes·60 + seconds; no match gives 0. -/
def parseDuration (s : List Char) : Nat :=
  match findPT s with
  | none => 0
  | some body =>
    let (h, r1) := tryNumGroup 'H' body
    let (m, r2) := tryNumGroup 'M' r1
    let (sec, _) := tryNumGroup 'S' r2
    3600 * h.getD 0 + 60 * m.getD 0 + sec.getD 0

/-! ### Project-list delete handler and the two stores (page.tsx:54-193) -/

/-- A `user_documents` row, restricted to the fields the delete/publish
handlers touch: `is_public` is the viewer-visibility column and
`is_published` the string mirror inside `document_data`. -/
structure UserDocument where
  id : Nat
  user_id : Nat
  is_public : Bool
  is_published : List Char
deriving DecidableEq, Repr

/-- A `tools` row (channel submission): `tool_url` is `tool_data.url`, which
embeds the referenced document id in a `/view/{id}` segment, and `is_active`
is the channel-visibility string flag. -/
structure ToolSubmission where
  tool_url : List Char
  is_active : List Char
deriving DecidableEq, Repr

/-- The two independent collections of the dual-store model. -/
structure Store where
  documents : List UserDocument
  tools : List ToolSubmission
deriving DecidableEq, Repr

/-- A submission references a document when the document id appears in its
stored URL under the fixed `/view/{id}` shape (README "Finding tools entries
for a document", spec section 6). -/
def submissionRefs (t : ToolSubmission) (docId : Nat) : Bool :=
  containsSub ("/view/".toList ++ decRepr docId) t.tool_url

/-- Embedding of `handleDeleteSequence` (page.tsx:149-193), success path:
fetch the document row for (id, user); if present, update it to
`is_public: false` / `is_published: "false"`; then delete the row for
(id, user).  The handler contains no code that reads or writes the `tools`
table, so the submissions collection passes through untouched. -/
def handleDeleteSequence (st : Store) (userId seqId : Nat) : Store :=
  let hit := fun (d : UserDocument) => d.id == seqId && d.user_id == userId
  let docs1 :=
    if st.documents.any hit then
      st.documents.map fun d =>
        if hit d then { d with is_public := false, is_published := "false".toList } else d
    else st.documents
  { documents := docs1.filter (fun d => !hit d), tools := st.tools }

/-! ### Derived definitions used to state the claims -/

/-- One optional component of an ISO-8601 duration: decimal digits followed
by the marker, or absent. -/
def optPart (o : Option Nat) (marker : Char) : List Char :=
  match o with
  | some n => decRepr n ++ [marker]
  | none => []

/-- An ISO-8601 duration string `PT{h}H{m}M{s}S` with each of the three
components optional. -/
def isoDuration (oh om os : Option Nat) : List Char :=
  'P' :: 'T' :: (optPart oh 'H' ++ optPart om 'M' ++ optPart os 'S')

/-- A video item that survives an export/re-import round trip: its stored
`url` is the canonical YouTube watch URL of its 11-character id. -/
def safeVideoItem (it : SequenceItem) : Bool :=
  it.video_id.length == 11 && it.video_id.all isIdCh && (it.url == watchBase ++ it.video_id)

/-- An image URL that survives an export/re-import round trip: nonempty,
free of whitespace and of the split separators, not a `video:`/`image:`
manual override, not sniffed as YouTube, and a fixed point of the Drive
rewrite. -/
def safeImageUrl (u : List Char) : Bool :=
  !u.isEmpty && u.all (fun c => !isSepCh c && !isWSCh c) &&
    !isPrefCI vidPre u && !isPrefCI imgPre u &&
    !containsSub ytComSub u && !containsSub ytBeSub u &&
    (convertGoogleDriveUrl u == u)

/-- Round-trip-safe item, by variant. -/
def safeRoundTripItem (it : SequenceItem) : Bool :=
  match it.type with
  | .video => safeVideoItem it
  | .image => safeImageUrl it.image_url

/-- Equivalence of items up to enrichment metadata: same type and same
discriminating content field (`video_id` for videos, `image_url` for
images). -/
def itemEquiv (a b : SequenceItem) : Bool :=
  a.type == b.type &&
    (match a.type with
     | .video => a.video_id == b.video_id
     | .image => a.image_url == b.image_url)

/-- Itemwise equivalence of two lists: same length, same order, equivalent
entries. -/
def listEquiv (l1 l2 : List SequenceItem) : Bool :=
  l1.length == l2.length && (l1.zip l2).all fun p => itemEquiv p.1 p.2

/-- Whether a Drive-folder listing entry yields an item on import: every
image does; a video does only when its URL is a Drive URL. -/
def keepsDriveFile (f : DriveFile) : Bool :=
  match (detectUrlType f.url).type with
  | .video => containsSub driveSub (detectUrlType f.url).processedUrl
  | .image => true

/-! ### Generic lemmas about the scanner and list utilities -/

theorem isPref_append_self (x t : List Char) : isPref x (x ++ t) = true := by
  induction x with
  | nil => rfl
  | cons a x ih => simp [isPref, ih]

theorem isPref_false_of_not_headAgree (x y t : List Char) (h : headAgree x y = false) :
    isPref y (x ++ t) = false := by
  induction x generalizing y with
  | nil => simp [headAgree] at h
  | cons a x ih =>
    cases y with
    | nil => simp [headAgree] at h
    | cons b y =>
      simp only [headAgree] at h
      simp only [List.cons_append, isPref]
      by_cases hab : a = b
      · rw [if_pos hab] at h
        rw [if_pos hab.symm]
        exact ih y h
      · rw [if_neg fun hba => hab hba.symm]

theorem mem_of_isPref {lit t : List Char} (h : isPref lit t = true) {c : Char}
    (hc : c ∈ lit) : c ∈ t := by
  induction lit generalizing t with
  | nil => cases hc
  | cons a x ih =>
    cases t with
    | nil => simp [isPref] at h
    | cons b y =>
      simp only [isPref] at h
      by_cases hab : a = b
      · rw [if_pos hab] at h
        rcases List.mem_cons.mp hc with rfl | hcx
        · exact hab ▸ List.mem_cons_self _ _
        · exact List.mem_cons_of_mem _ (ih h hcx)
      · rw [if_neg hab] at h
        cases h

theorem capAt_none_of_no_isPref {lits : List (List Char)} {cls : Char → Bool}
    {s : List Char} (h : ∀ lit ∈ lits, isPref lit s = false) :
    capAt cls lits s = none := by
  induction lits with
  | nil => rfl
  | cons lit more ih =>
    simp only [capAt]
    rw [if_neg]
    · exact ih fun l hl => h l (List.mem_cons_of_mem _ hl)
    · intro hcon
      have := h lit (List.mem_cons_self _ _)
      rw [hcon.1] at this
      cases this

theorem capAt_none_of_missing {lits : List (List Char)} {cls : Char → Bool}
    {s : List Char} (h : ∀ lit ∈ lits, ∃ ch, ch ∈ lit ∧ ch ∉ s) :
    capAt cls lits s = none := by
  refine capAt_none_of_no_isPref fun lit hl => ?_
  obtain ⟨ch, hch, hns⟩ := h lit hl
  cases hp : isPref lit s
  · rfl
  · exact absurd (mem_of_isPref hp hch) hns

theorem findCaptureAlt_none_of_missing {lits : List (List Char)} {cls : Char → Bool}
    {s : List Char} (h : ∀ lit ∈ lits, ∃ ch, ch ∈ lit ∧ ch ∉ s) :
    findCaptureAlt lits cls s = none := by
  induction s with
  | nil => rfl
  | cons c rest ih =>
    simp only [findCaptureAlt]
    rw [capAt_none_of_missing h]
    exact ih fun lit hl => by
      obtain ⟨ch, hch, hns⟩ := h lit hl
      exact ⟨ch, hch, fun hr => hns (List.mem_cons_of_mem _ hr)⟩

theorem findCaptureAlt_append_skip {lits : List (List Char)} {cls : Char → Bool}
    {pre suf : List Char}
    (h : ∀ k, k < pre.length → ∀ lit ∈ lits, headAgree (pre.drop k) lit = false) :
    findCaptureAlt lits cls (pre ++ suf) = findCaptureAlt lits cls suf := by
  induction pre with
  | nil => rfl
  | cons c pre ih =>
    have hcap : capAt cls lits ((c :: pre) ++ suf) = none :=
      capAt_none_of_no_isPref fun lit hl =>
        isPref_false_of_not_headAgree (c :: pre) lit suf
          (h 0 (Nat.succ_pos _) lit hl)
    simp only [List.cons_append, findCaptureAlt, List.append_eq]
    rw [← List.cons_append, hcap]
    exact ih fun k hk lit hl => h (k + 1) (Nat.succ_lt_succ hk) lit hl

theorem takeWhile_all_eq {p : Char → Bool} {s : List Char}
    (h : ∀ c ∈ s, p c = true) : s.takeWhile p = s := by
  induction s with
  | nil => rfl
  | cons c rest ih =>
    rw [List.takeWhile_cons, h c (List.mem_cons_self _ _)]
    exact congrArg (c :: ·) (ih fun d hd => h d (List.mem_cons_of_mem _ hd))

theorem takeWhile_append_stop {p : Char → Bool} {a : List Char} {b : Char}
    {r : List Char} (ha : ∀ c ∈ a, p c = true) (hb : p b = false) :
    (a ++ b :: r).takeWhile p = a := by
  induction a with
  | nil => simp [List.takeWhile_cons, hb]
  | cons c rest ih =>
    rw [List.cons_append, List.takeWhile_cons, ha c (List.mem_cons_self _ _)]
    exact congrArg (c :: ·) (ih fun d hd => ha d (List.mem_cons_of_mem _ hd))

theorem findCaptureAlt_head_hit {lit : List Char} {more : List (List Char)}
    {cls : Char → Bool} {rest : List Char} (hl : lit ≠ [])
    (hcap : rest.takeWhile cls ≠ []) :
    findCaptureAlt (lit :: more) cls (lit ++ rest) = some (rest.takeWhile cls) := by
  cases lit with
  | nil => exact absurd rfl hl
  | cons a x =>
    have hdrop : (((a :: x) ++ rest).drop (a :: x).length).takeWhile cls =
        rest.takeWhile cls := by
      rw [List.drop_left]
    simp only [List.cons_append, findCaptureAlt, capAt, List.append_eq]
    simp only [← List.cons_append]
    rw [hdrop, if_pos ⟨isPref_append_self _ _, hcap⟩]

theorem dropWhile_eq_self_of_head {p : Char → Bool} {s : List Char}
    (h : ∀ c, s.head? = some c → p c = false) : s.dropWhile p = s := by
  cases s with
  | nil => rfl
  | cons c rest => rw [List.dropWhile_cons, h c rfl]; simp

theorem trimL_eq_self_of_ends {s : List Char}
    (h1 : ∀ c, s.head? = some c → isWSCh c = false)
    (h2 : ∀ c, s.getLast? = some c → isWSCh c = false) : trimL s = s := by
  unfold trimL
  rw [dropWhile_eq_self_of_head h1]
  rw [dropWhile_eq_self_of_head (by rw [List.head?_reverse]; exact h2)]
  exact List.reverse_reverse s

theorem trimL_eq_self {s : List Char} (h : ∀ c ∈ s, isWSCh c = false) : trimL s = s :=
  trimL_eq_self_of_ends
    (fun c hc => h c (by cases s with
      | nil => cases hc
      | cons a t => cases hc; exact List.mem_cons_self _ _))
    (fun c hc => h c (by
      have : c ∈ s.reverse := by rw [← List.head?_reverse] at hc; exact List.mem_of_mem_head? hc
      exact List.mem_reverse.mp this))

/-! ### Renumbering and splice lemmas -/

theorem renumberFrom_map_position (l : List SequenceItem) (k : Nat) :
    (renumberFrom k l).map (·.position) = List.range' k l.length := by
  induction l generalizing k with
  | nil => rfl
  | cons it rest ih => simp [renumberFrom, List.range', ih]

theorem renumberFrom_length (l : List SequenceItem) (k : Nat) :
    (renumberFrom k l).length = l.length := by
  induction l generalizing k with
  | nil => rfl
  | cons it rest ih => simp [renumberFrom, ih]

theorem densePositionsB_renumber (l : List SequenceItem) :
    densePositionsB (renumber l) = true := by
  simp only [densePositionsB, renumber, renumberFrom_map_position, renumberFrom_length,
    beq_iff_eq]

theorem renumberFrom_eq_self {l : List SequenceItem} {k : Nat}
    (h : l.map (·.position) = List.range' k l.length) : renumberFrom k l = l := by
  induction l generalizing k with
  | nil => rfl
  | cons it rest ih =>
    simp only [List.map_cons, List.length_cons, List.range'] at h
    obtain ⟨h1, h2⟩ := List.cons.inj h
    show ({ it with position := k } :: renumberFrom (k + 1) rest) = it :: rest
    rw [ih h2, ← h1]

theorem renumber_eq_self {l : List SequenceItem} (h : densePositionsB l = true) :
    renumber l = l :=
  renumberFrom_eq_self (by simpa [densePositionsB] using h)

theorem insertIdx_eraseIdx_self {l : List SequenceItem} {i : Nat} {x : SequenceItem}
    (h : l.get? i = some x) : (l.eraseIdx i).insertIdx i x = l := by
  induction l generalizing i with
  | nil => cases h
  | cons c rest ih =>
    cases i with
    | zero =>
      simp only [List.get?] at h
      cases h
      rfl
    | succ i =>
      simp only [List.get?] at h
      simp only [List.eraseIdx, List.insertIdx]
      exact congrArg (c :: ·) (ih h)

/-! ### Split/join round trip -/

theorem splitSep_ne_nil (s : List Char) : splitSep s ≠ [] := by
  cases s with
  | nil => simp [splitSep]
  | cons c rest =>
    simp only [splitSep]
    cases h : splitSep rest with
    | nil => simp
    | cons cur done =>
      split
      · simp
      · split <;> simp

theorem splitSep_sep_cons {c : Char} (hc : isSepCh c = true) (s : List Char) :
    splitSep (c :: s) = [] :: splitSep s := by
  simp only [splitSep]
  cases h : splitSep s with
  | nil => exact absurd h (splitSep_ne_nil s)
  | cons cur done =>
    show (if isSepCh c = true then [] :: cur :: done else (c :: cur) :: done) = [] :: cur :: done
    rw [if_pos hc]

theorem splitSep_append_nosep {x s : List Char} (hx : ∀ c ∈ x, isSepCh c = false)
    {h0 : List Char} {t : List (List Char)} (hs : splitSep s = h0 :: t) :
    splitSep (x ++ s) = (x ++ h0) :: t := by
  induction x with
  | nil => simpa using hs
  | cons c rest ih =>
    have hc : isSepCh c = false := hx c (List.mem_cons_self _ _)
    have ihr := ih fun d hd => hx d (List.mem_cons_of_mem _ hd)
    simp only [List.cons_append, splitSep, List.append_eq]
    rw [ihr]
    simp [hc]

theorem splitSep_joinNL {L : List (List Char)} (hne : L ≠ [])
    (h : ∀ l ∈ L, ∀ c ∈ l, isSepCh c = false) : splitSep (joinNL L) = L := by
  induction L with
  | nil => exact absurd rfl hne
  | cons x rest ih =>
    cases rest with
    | nil =>
      have : splitSep (x ++ ([] : List Char)) = (x ++ []) :: [] :=
        splitSep_append_nosep (h x (List.mem_cons_self _ _)) rfl
      simpa [joinNL] using this
    | cons y t =>
      have hrest : splitSep (joinNL (y :: t)) = y :: t :=
        ih (by simp) fun l hl => h l (List.mem_cons_of_mem _ hl)
      have hnl : splitSep ('\n' :: joinNL (y :: t)) = [] :: y :: t := by
        rw [splitSep_sep_cons (by decide), hrest]
      have : splitSep (x ++ '\n' :: joinNL (y :: t)) = (x ++ []) :: y :: t :=
        splitSep_append_nosep (h x (List.mem_cons_self _ _)) hnl
      simpa [joinNL] using this

/-! ### Decimal representation lemmas -/

theorem decReprAux_fuel_irrel (n : Nat) :
    ∀ fuel fuel', n < fuel → n < fuel' → decReprAux fuel n = decReprAux fuel' n := by
  induction n using Nat.strong_induction_on with
  | _ n ih =>
    intro fuel fuel' hf hf'
    cases fuel with
    | zero => omega
    | succ f =>
      cases fuel' with
      | zero => omega
      | succ f' =>
        simp only [decReprAux]
        by_cases h10 : n < 10
        · rw [if_pos h10, if_pos h10]
        · rw [if_neg h10, if_neg h10]
          have hlt : n / 10 < n := Nat.div_lt_self (by omega) (by omega)
          rw [ih (n / 10) hlt f f' (by omega) (by omega)]

theorem decRepr_unfold (n : Nat) :
    decRepr n = if n < 10 then [hexDigitCh n] else decRepr (n / 10) ++ [hexDigitCh (n % 10)] := by
  show decReprAux (n + 1) n = _
  rw [decReprAux]
  by_cases h10 : n < 10
  · rw [if_pos h10, if_pos h10]
  · rw [if_neg h10, if_neg h10]
    have hlt : n / 10 < n := Nat.div_lt_self (by omega) (by omega)
    rw [decReprAux_fuel_irrel (n / 10) n (n / 10 + 1) (by omega) (by omega)]
    rfl

theorem decRepr_ne_nil (n : Nat) : decRepr n ≠ [] := by
  rw [decRepr_unfold]
  split <;> simp

theorem decRepr_digits (n : Nat) : ∀ c ∈ decRepr n, isDigitCh c = true := by
  induction n using Nat.strong_induction_on with
  | _ n ih =>
    rw [decRepr_unfold]
    have h10 : ∀ m, m < 10 → isDigitCh (hexDigitCh m) = true := by decide
    split
    · intro c hc
      rcases List.mem_singleton.mp hc with rfl
      exact h10 n (by omega)
    · intro c hc
      rcases List.mem_append.mp hc with hl | hr
      · exact ih (n / 10) (Nat.div_lt_self (by omega) (by omega)) c hl
      · rcases List.mem_singleton.mp hr with rfl
        exact h10 (n % 10) (Nat.mod_lt _ (by omega))

theorem digitsVal_append_digit (a : List Char) (c : Char) :
    digitsVal (a ++ [c]) = 10 * digitsVal a + (c.toNat - 48) := by
  simp [digitsVal, List.foldl_append]

theorem digitsVal_decRepr (n : Nat) : digitsVal (decRepr n) = n := by
  induction n using Nat.strong_induction_on with
  | _ n ih =>
    rw [decRepr_unfold]
    have h10 : ∀ m, m < 10 → (hexDigitCh m).toNat = 48 + m := by decide
    split
    · rename_i h
      simp [digitsVal, h10 n h]
    · rename_i h
      rw [digitsVal_append_digit, ih (n / 10) (Nat.div_lt_self (by omega) (by omega)),
        h10 (n % 10) (Nat.mod_lt _ (by omega))]
      omega

/-! ### Percent-codec lemmas -/

theorem encodeURIComponent_mem :
    ∀ {u : List Char}, (∀ d ∈ u, d.toNat < 128) → ∀ {c : Char},
      c ∈ encodeURIComponent u →
      isUnreservedCh c = true ∨ c.toNat = 37 ∨ (48 ≤ c.toNat ∧ c.toNat ≤ 57) ∨
        (65 ≤ c.toNat ∧ c.toNat ≤ 70) := by
  have hhex : ∀ n, n < 16 → (48 ≤ (hexDigitCh n).toNat ∧ (hexDigitCh n).toNat ≤ 57) ∨
      (65 ≤ (hexDigitCh n).toNat ∧ (hexDigitCh n).toNat ≤ 70) := by decide
  intro u
  induction u with
  | nil => intro _ c hc; cases hc
  | cons a rest ih =>
    intro hu c hc
    have ha128 : a.toNat < 128 := hu a (List.mem_cons_self _ _)
    have hur : ∀ d ∈ rest, d.toNat < 128 := fun d hd => hu d (List.mem_cons_of_mem _ hd)
    rw [encodeURIComponent] at hc
    by_cases ha : isUnreservedCh a = true
    · rw [if_pos ha] at hc
      rcases List.mem_cons.mp hc with rfl | hr
      · exact Or.inl ha
      · exact ih hur hr
    · rw [if_neg ha] at hc
      rcases List.mem_cons.mp hc with rfl | hc1
      · exact Or.inr (Or.inl rfl)
      · rcases List.mem_cons.mp hc1 with rfl | hc2
        · rcases hhex (a.toNat / 16) (by omega) with h | h
          · exact Or.inr (Or.inr (Or.inl h))
          · exact Or.inr (Or.inr (Or.inr h))
        · rcases List.mem_cons.mp hc2 with rfl | hc3
          · rcases hhex (a.toNat % 16) (Nat.mod_lt _ (by omega)) with h | h
            · exact Or.inr (Or.inr (Or.inl h))
            · exact Or.inr (Or.inr (Or.inr h))
          · exact ih hur hc3

theorem encodeURIComponent_ne_nil {u : List Char} (h : u ≠ []) :
    encodeURIComponent u ≠ [] := by
  cases u with
  | nil => exact absurd rfl h
  | cons c rest =>
    rw [encodeURIComponent]
    split <;> simp

theorem encodeURIComponent_notNL {u : List Char} (hu : ∀ d ∈ u, d.toNat < 128) :
    ∀ c ∈ encodeURIComponent u, notNL c = true := by
  intro c hc
  have hn : c.toNat ≠ 10 := by
    rcases encodeURIComponent_mem hu hc with h | h | h | h
    · simp only [isUnreservedCh, Bool.or_eq_true, Bool.and_eq_true, decide_eq_true_eq] at h
      omega
    · omega
    · omega
    · omega
  simp [notNL, hn]

theorem decodeURIComponent_cons_ne {c : Char} (t : List Char) (h : c ≠ '%') :
    decodeURIComponent (c :: t) = c :: decodeURIComponent t := by
  rw [decodeURIComponent.eq_def]
  split
  · simp_all
  · rename_i heq
    simp only [List.cons.injEq] at heq
    exact absurd heq.1 h
  · rename_i heq
    simp only [List.cons.injEq] at heq
    rw [heq.1, heq.2]

theorem decodeURIComponent_pct (h1 h2 : Char) (t : List Char) {a b : Nat}
    (hv1 : hexVal h1 = some a) (hv2 : hexVal h2 = some b) :
    decodeURIComponent ('%' :: h1 :: h2 :: t) =
      Char.ofNat (16 * a + b) :: decodeURIComponent t := by
  rw [decodeURIComponent.eq_def]
  split
  · simp_all
  · rename_i heq
    simp only [List.cons.injEq, true_and] at heq
    obtain ⟨e1, e2, e3⟩ := heq
    rw [← e1, ← e2, ← e3, hv1, hv2]
  · rename_i x heq
    simp only [List.cons.injEq] at heq
    exact (x h1 h2 t heq.1.symm heq.2.symm).elim

theorem decode_encode {u : List Char} (hu : ∀ d ∈ u, d.toNat < 128) :
    decodeURIComponent (encodeURIComponent u) = u := by
  have hval : ∀ n, n < 16 → hexVal (hexDigitCh n) = some n := by decide
  induction u with
  | nil => rfl
  | cons a rest ih =>
    have ha128 : a.toNat < 128 := hu a (List.mem_cons_self _ _)
    have hur : ∀ d ∈ rest, d.toNat < 128 := fun d hd => hu d (List.mem_cons_of_mem _ hd)
    rw [encodeURIComponent]
    by_cases ha : isUnreservedCh a = true
    · rw [if_pos ha]
      have hne : a ≠ '%' := by
        intro hpc
        rw [hpc] at ha
        exact absurd ha (by decide)
      rw [decodeURIComponent_cons_ne _ hne, ih hur]
    · rw [if_neg ha]
      have hdiv : a.toNat / 16 < 16 := by omega
      have hmod : a.toNat % 16 < 16 := Nat.mod_lt _ (by omega)
      rw [decodeURIComponent_pct _ _ _ (hval _ hdiv) (hval _ hmod), ih hur]
      have hsum : 16 * (a.toNat / 16) + a.toNat % 16 = a.toNat := by omega
      rw [hsum, Char.ofNat_toNat]

/-! ### Character-class implications and substring helpers -/

theorem idCh_not_sep {c : Char} (h : isIdCh c = true) : isSepCh c = false := by
  simp only [isIdCh, Bool.or_eq_true, Bool.and_eq_true, decide_eq_true_eq] at h
  simp only [isSepCh, Bool.or_eq_false_iff, decide_eq_false_iff_not]
  omega

theorem idCh_not_ws {c : Char} (h : isIdCh c = true) : isWSCh c = false := by
  simp only [isIdCh, Bool.or_eq_true, Bool.and_eq_true, decide_eq_true_eq] at h
  simp only [isWSCh, Bool.or_eq_false_iff, decide_eq_false_iff_not]
  omega

theorem idCh_ytCls {c : Char} (h : isIdCh c = true) : ytCls c = true := by
  simp only [isIdCh, Bool.or_eq_true, Bool.and_eq_true, decide_eq_true_eq] at h
  simp only [ytCls, Bool.not_eq_true', Bool.or_eq_false_iff, decide_eq_false_iff_not]
  omega

theorem isPref_extend {x y : List Char} (z : List Char) (h : isPref x y = true) :
    isPref x (y ++ z) = true := by
  induction x generalizing y with
  | nil => rfl
  | cons a x ih =>
    cases y with
    | nil => simp [isPref] at h
    | cons b y =>
      simp only [isPref] at h
      by_cases hab : a = b
      · rw [if_pos hab] at h
        simp only [List.cons_append, isPref, if_pos hab]
        exact ih h
      · rw [if_neg hab] at h
        cases h

theorem containsSub_of_isPref {pat t : List Char} (h : isPref pat t = true) :
    containsSub pat t = true := by
  cases t with
  | nil => simpa [containsSub] using h
  | cons c rest => simp [containsSub, h]

theorem containsSub_append_right {pat t : List Char} (x : List Char)
    (h : containsSub pat t = true) : containsSub pat (x ++ t) = true := by
  induction x with
  | nil => simpa using h
  | cons c rest ih => simp [containsSub, ih]

theorem isPrefCI_head_ne {a b : Char} {x y : List Char} (h : a.toLower ≠ b.toLower) :
    isPrefCI (a :: x) (b :: y) = false := by
  simp [isPrefCI, h]

theorem isPrefCI_self_append (x t : List Char) : isPrefCI x (x ++ t) = true := by
  induction x with
  | nil => rfl
  | cons a x ih => simp [isPrefCI, ih]

theorem getLast?_exists_of_ne_nil {u : List Char} (h : u ≠ []) :
    ∃ d, u.getLast? = some d := by
  rw [← List.head?_reverse]
  cases hr : u.reverse with
  | nil => exact absurd (List.reverse_eq_nil_iff.mp hr) h
  | cons d t => exact ⟨d, rfl⟩

theorem mem_of_getLast?_char {u : List Char} {d : Char} (h : u.getLast? = some d) :
    d ∈ u := by
  rw [← List.head?_reverse] at h
  exact List.mem_reverse.mp (List.mem_of_mem_head? h)

/-! ### Duration parser lemmas -/

theorem tryNumGroup_hit {mk : Char} (hmk : isDigitCh mk = false) (n : Nat) (r : List Char) :
    tryNumGroup mk (decRepr n ++ mk :: r) = (some n, r) := by
  have htw : (decRepr n ++ mk :: r).takeWhile isDigitCh = decRepr n :=
    takeWhile_append_stop (decRepr_digits n) hmk
  simp only [tryNumGroup, htw, List.drop_left]
  rw [if_pos ⟨decRepr_ne_nil n, rfl⟩]
  simp [digitsVal_decRepr]

theorem tryNumGroup_miss {mk mk' : Char} (hne : mk' ≠ mk) (hmk' : isDigitCh mk' = false)
    (n : Nat) (r : List Char) :
    tryNumGroup mk (decRepr n ++ mk' :: r) = (none, decRepr n ++ mk' :: r) := by
  have htw : (decRepr n ++ mk' :: r).takeWhile isDigitCh = decRepr n :=
    takeWhile_append_stop (decRepr_digits n) hmk'
  simp only [tryNumGroup, htw, List.drop_left]
  rw [if_neg]
  intro hcon
  have h2 := hcon.2
  simp only [List.head?_cons, Option.some.injEq] at h2
  exact hne h2

theorem tryNumGroup_nil (mk : Char) : tryNumGroup mk [] = (none, []) := by
  simp [tryNumGroup]

theorem findPT_at_start (body : List Char) : findPT ('P' :: 'T' :: body) = some body := by
  simp [findPT, isPref]

/-- Claim C7 — `parseDuration` sums hours·3600 + minutes·60 + seconds for
every ISO-8601 duration of the form `PT{h}H{m}M{s}S` with each component
optional; in particular `PT7M32S` gives 452 and `PT1H` gives 3600. -/
theorem parseDuration_correct :
    (∀ oh om os : Option Nat,
      parseDuration (isoDuration oh om os) =
        3600 * oh.getD 0 + 60 * om.getD 0 + os.getD 0) ∧
    parseDuration "PT7M32S".toList = 452 ∧ parseDuration "PT1H".toList = 3600 := by
  refine ⟨fun oh om os => ?_, by decide, by decide⟩
  have hH : isDigitCh 'H' = false := by decide
  have hM : isDigitCh 'M' = false := by decide
  have hS : isDigitCh 'S' = false := by decide
  have hMH : ('M' : Char) ≠ 'H' := by decide
  have hSH : ('S' : Char) ≠ 'H' := by decide
  have hSM : ('S' : Char) ≠ 'M' := by decide
  simp only [parseDuration, isoDuration, findPT_at_start]
  cases oh with
  | some h =>
    cases om with
    | some m =>
      cases os with
      | some s =>
        simp only [optPart, List.append_assoc, List.cons_append, List.nil_append,
          List.singleton_append]
        rw [tryNumGroup_hit hH, tryNumGroup_hit hM, tryNumGroup_hit hS]
      | none =>
        simp only [optPart, List.append_assoc, List.cons_append, List.nil_append,
          List.singleton_append, List.append_nil]
        rw [tryNumGroup_hit hH, tryNumGroup_hit hM, tryNumGroup_nil]
    | none =>
      cases os with
      | some s =>
        simp only [optPart, List.append_assoc, List.cons_append, List.nil_append,
          List.singleton_append]
        rw [tryNumGroup_hit hH, tryNumGroup_miss hSM hS, tryNumGroup_hit hS]
      | none =>
        simp only [optPart, List.append_assoc, List.cons_append, List.nil_append,
          List.singleton_append, List.append_nil]
        rw [tryNumGroup_hit hH, tryNumGroup_nil, tryNumGroup_nil]
  | none =>
    cases om with
    | some m =>
      cases os with
      | some s =>
        simp only [optPart, List.append_assoc, List.cons_append, List.nil_append,
          List.singleton_append]
        rw [tryNumGroup_miss hMH hM, tryNumGroup_hit hM, tryNumGroup_hit hS]
      | none =>
        simp only [optPart, List.append_assoc, List.cons_append, List.nil_append,
          List.singleton_append, List.append_nil]
        rw [tryNumGroup_miss hMH hM, tryNumGroup_hit hM, tryNumGroup_nil]
    | none =>
      cases os with
      | some s =>
        simp only [optPart, List.append_assoc, List.cons_append, List.nil_append,
          List.singleton_append]
        rw [tryNumGroup_miss hSH hS, tryNumGroup_miss hSM hS, tryNumGroup_hit hS]
      | none => simp [optPart, tryNumGroup_nil]

/-! ### Claim C3 — dense positions after every mutation -/

theorem handleDragEnd_some (activeId n : Nat) (items : List SequenceItem) :
    handleDragEnd activeId (some n) items =
      if activeId ≠ n then renumber (arrayMove items activeId n) else items := rfl

theorem handleMoveToPosition_some (i tgt : Nat) (items : List SequenceItem) :
    handleMoveToPosition (some i) tgt items =
      if tgt < 1 || tgt > items.length then items
      else
        match items.get? i with
        | none => items
        | some x => renumber ((items.eraseIdx i).insertIdx (tgt - 1) x) := rfl

/-- Claim C3 — for every item list with the dense-positions invariant, the
drag reorder, the move-to-position operation and item deletion all leave the
position fields reading exactly 1..N in list order, with no gaps and no
duplicates (the mutating branches renumber unconditionally; the guard
branches return the list unchanged, which keeps the invariant). -/
theorem mutations_keep_dense_positions
    (items : List SequenceItem) (activeId : Nat) (overId : Option Nat)
    (sel : Option Nat) (tgt : Nat) (j : Nat)
    (hgood : densePositionsB items = true) :
    densePositionsB (handleDragEnd activeId overId items) = true ∧
    densePositionsB (handleMoveToPosition sel tgt items) = true ∧
    densePositionsB (handleDeleteItem j items) = true := by
  refine ⟨?_, ?_, densePositionsB_renumber _⟩
  · cases overId with
    | none => exact hgood
    | some n =>
      rw [handleDragEnd_some]
      by_cases hne : activeId ≠ n
      · rw [if_pos hne]
        exact densePositionsB_renumber _
      · rw [if_neg hne]
        exact hgood
  · cases sel with
    | none => exact hgood
    | some i =>
      rw [handleMoveToPosition_some]
      by_cases hguard : (tgt < 1 || tgt > items.length) = true
      · rw [if_pos hguard]
        exact hgood
      · rw [if_neg hguard]
        cases items.get? i with
        | none => exact hgood
        | some x => exact densePositionsB_renumber _

/-- Witness for C3: on a concrete two-item list, a drag swap, a move to the
front and a deletion all yield dense positions. -/
theorem mutations_keep_dense_positions_witness :
    densePositionsB
        (handleDragEnd 0 (some 1)
          [{ position := 1, type := .image, image_url := ['a'] },
           { position := 2, type := .video, video_id := ['b'] }]) = true ∧
    densePositionsB
        (handleMoveToPosition (some 1) 1
          [{ position := 1, type := .image, image_url := ['a'] },
           { position := 2, type := .video, video_id := ['b'] }]) = true ∧
    densePositionsB
        (handleDeleteItem 0
          [{ position := 1, type := .image, image_url := ['a'] },
           { position := 2, type := .video, video_id := ['b'] }]) = true :=
  mutations_keep_dense_positions _ 0 (some 1) (some 1) 1 0 (by decide)

/-! ### Claim C4 — drag reorder and move-to-position agree -/

/-- Claim C4 — on any list satisfying the dense-positions invariant, for any
source index `i` and target position `p` in 1..N, the drag-and-drop reorder
(contiguous array move to index `p - 1`) and the explicit
move-item-to-position operation produce identical final lists, both
renumbered to 1..N. -/
theorem dragEnd_eq_moveToPosition
    (items : List SequenceItem) (i p : Nat)
    (hgood : densePositionsB items = true)
    (hi : i < items.length) (hp1 : 1 ≤ p) (hp2 : p ≤ items.length) :
    handleDragEnd i (some (p - 1)) items = handleMoveToPosition (some i) p items := by
  have hget : items.get? i = some (items.get ⟨i, hi⟩) := List.get?_eq_get hi
  have hguard : ¬((p < 1 || p > items.length) = true) := by
    simp only [Bool.or_eq_true, decide_eq_true_eq]
    omega
  rw [handleDragEnd_some, handleMoveToPosition_some, if_neg hguard]
  by_cases hip : i = p - 1
  · rw [if_neg (show ¬i ≠ p - 1 by omega)]
    simp only [hget]
    rw [← hip, insertIdx_eraseIdx_self hget, renumber_eq_self hgood]
  · rw [if_pos (show i ≠ p - 1 from hip)]
    simp only [arrayMove, hget]
    have hmin : min (p - 1) (items.length - 1) = p - 1 := Nat.min_eq_left (by omega)
    rw [hmin]

/-- Witness for C4: moving the first item of a concrete three-item list to
the end gives the same list through both mechanics. -/
theorem dragEnd_eq_moveToPosition_witness :
    handleDragEnd 0 (some 2)
        [{ position := 1, type := .image, image_url := ['a'] },
         { position := 2, type := .video, video_id := ['b'] },
         { position := 3, type := .image, image_url := ['c'] }] =
      handleMoveToPosition (some 0) 3
        [{ position := 1, type := .image, image_url := ['a'] },
         { position := 2, type := .video, video_id := ['b'] },
         { position := 3, type := .image, image_url := ['c'] }] :=
  dragEnd_eq_moveToPosition _ 0 3 (by decide) (by decide) (by decide) (by decide)

/-! ### Claim C9 — save validation is atomic and filters invalid items -/

theorem filter_all_true {p : SequenceItem → Bool} (l : List SequenceItem) :
    (l.filter p).all p = true := by
  induction l with
  | nil => rfl
  | cons a rest ih =>
    rw [List.filter_cons]
    by_cases hp : p a = true
    · rw [if_pos hp]
      simp [hp, ih]
    · rw [if_neg hp]
      exact ih

/-- Claim C9 — `handleSaveDraft` aborts with an error and writes nothing when
the trimmed title is empty or no item passes the validity filter; when it
does write, the persisted items are exactly the valid ones, so an item with
an empty discriminating field is never written. -/
theorem handleSaveDraft_validates
    (title : List Char) (items : List SequenceItem) (pub : Bool) :
    ((trimL title).isEmpty = true →
      handleSaveDraft title items pub = .error "Title is required".toList) ∧
    ((trimL title).isEmpty = false → (items.filter isValidItem).isEmpty = true →
      handleSaveDraft title items pub =
        .error "At least one item with content is required".toList) ∧
    (∀ doc, handleSaveDraft title items pub = .ok doc →
      doc.items = items.filter isValidItem ∧ doc.items.all isValidItem = true) := by
  refine ⟨fun h1 => ?_, fun h1 h2 => ?_, fun doc hok => ?_⟩
  · simp [handleSaveDraft, h1]
  · simp [handleSaveDraft, h1, h2]
  · unfold handleSaveDraft at hok
    by_cases h1 : (trimL title).isEmpty = true
    · rw [if_pos h1] at hok
      cases hok
    · rw [if_neg h1] at hok
      by_cases h2 : (items.filter isValidItem).isEmpty = true
      · rw [if_pos h2] at hok
        cases hok
      · rw [if_neg h2] at hok
        cases hok
        exact ⟨rfl, filter_all_true items⟩

/-- Witness for C9: an empty title aborts; with a real title, an invalid
video item (empty id) is dropped while the valid image item is persisted. -/
theorem handleSaveDraft_validates_witness :
    handleSaveDraft [] [] true = .error "Title is required".toList ∧
    (∀ doc,
      handleSaveDraft ['t']
          [{ position := 1, type := .video, video_id := [] },
           { position := 2, type := .image, image_url := ['a'] }] false = .ok doc →
      doc.items =
          [{ position := 1, type := .video, video_id := [] },
           { position := 2, type := .image, image_url := ['a'] }].filter isValidItem ∧
        doc.items.all isValidItem = true) :=
  ⟨(handleSaveDraft_validates [] [] true).1 (by decide),
   fun doc hok => (handleSaveDraft_validates ['t'] _ false).2.2 doc hok⟩

/-! ### Claim C1 — delete and the submissions store -/

/-- Claim C1 (code bug) — evaluation of `handleDeleteSequence` at the
failing input: a store holding one published document (id 7, owner 1) and
one `active` submission whose stored URL references `/view/7`.  The delete
completes (the document row is gone) while the referencing submission is
still `active`: the handler never executes any unsubmit step, contradicting
the claimed unsubmit-before-delete ordering (which the repository README
documents as the intended behaviour and lists fixing as a pending task). -/
theorem handleDeleteSequence_leaves_submission_active :
    (handleDeleteSequence
        { documents := [{ id := 7, user_id := 1, is_public := true,
                          is_published := "true".toList }],
          tools := [{ tool_url := "https://recursive.eco/view/7".toList,
                      is_active := "true".toList }] }
        1 7).documents = [] ∧
    (handleDeleteSequence
        { documents := [{ id := 7, user_id := 1, is_public := true,
                          is_published := "true".toList }],
          tools := [{ tool_url := "https://recursive.eco/view/7".toList,
                      is_active := "true".toList }] }
        1 7).tools =
      [{ tool_url := "https://recursive.eco/view/7".toList,
         is_active := "true".toList }] ∧
    submissionRefs
        { tool_url := "https://recursive.eco/view/7".toList,
          is_active := "true".toList } 7 = true := by
  refine ⟨by decide, rfl, by decide⟩

/-! ### Claim C5 — classification as a fixed point -/

theorem convertGoogleDriveUrl_canonical_fixed {id : List Char} (hid : '/' ∉ id) :
    convertGoogleDriveUrl (driveUcBase ++ id) = driveUcBase ++ id := by
  have h1 : findCaptureAlt [drivePat1] notSlash (driveUcBase ++ id) = none := by
    rw [findCaptureAlt_append_skip (by decide)]
    refine findCaptureAlt_none_of_missing fun lit hl => ?_
    rcases List.mem_singleton.mp hl with rfl
    exact ⟨'/', by decide, hid⟩
  have h2 : findCaptureAlt [drivePat2] notAmp (driveUcBase ++ id) = none := by
    rw [findCaptureAlt_append_skip (by decide)]
    refine findCaptureAlt_none_of_missing fun lit hl => ?_
    rcases List.mem_singleton.mp hl with rfl
    exact ⟨'/', by decide, hid⟩
  simp [convertGoogleDriveUrl, h1, h2]

theorem extractYouTubeId_bare_id {s : List Char} (_hlen : s.length = 11)
    (hall : ∀ c ∈ s, isIdCh c = true) : extractYouTubeId s = s := by
  have hdot : '.' ∉ s := fun hmem => absurd (hall '.' hmem) (by decide)
  have h1 : findCaptureAlt [ytWatchPat, ytBePat, ytEmbedPat] ytCls s = none := by
    refine findCaptureAlt_none_of_missing fun lit hl => ?_
    simp only [List.mem_cons, List.mem_singleton, List.not_mem_nil, or_false] at hl
    rcases hl with rfl | rfl | rfl
    · exact ⟨'.', by decide, hdot⟩
    · exact ⟨'.', by decide, hdot⟩
    · exact ⟨'.', by decide, hdot⟩
  have h2 : findCaptureAlt [ytShortsPat] ytCls s = none := by
    refine findCaptureAlt_none_of_missing fun lit hl => ?_
    rcases List.mem_singleton.mp hl with rfl
    exact ⟨'.', by decide, hdot⟩
  simp [extractYouTubeId, h1, h2]

/-- Claim C5 counterexample — re-classifying is not a fixed point for every
raw URL: for the open?id URL whose captured id itself embeds a Drive
open?id pattern, applying `convertGoogleDriveUrl` to its own canonical
output changes it again. -/
theorem classification_fixed_point_counterexample :
    convertGoogleDriveUrl
        (convertGoogleDriveUrl
          "https://drive.google.com/open?id=Adrive.google.com/open?id=z".toList) ≠
      convertGoogleDriveUrl
        "https://drive.google.com/open?id=Adrive.google.com/open?id=z".toList := by
  decide

/-- Claim C5 (amended) — classification is a fixed point on the inputs the
classifier is designed for: the Drive rewrite maps its canonical output
`drive.google.com/uc?export=view&id={id}` to itself whenever the captured id
contains no slash (true of every real Drive file id), and extracting a
YouTube id from an already-extracted 11-character id returns the same id. -/
theorem classification_fixed_point :
    (∀ id : List Char, '/' ∉ id →
      convertGoogleDriveUrl (driveUcBase ++ id) = driveUcBase ++ id) ∧
    (∀ s : List Char, s.length = 11 → (∀ c ∈ s, isIdCh c = true) →
      extractYouTubeId s = s) :=
  ⟨fun _ hid => convertGoogleDriveUrl_canonical_fixed hid,
   fun _ hlen hall => extractYouTubeId_bare_id hlen hall⟩

/-- Witness for C5: the canonical form of id `ABC123` maps to itself, and
the canonical video id `dQw4w9WgXcQ` extracts to itself. -/
theorem classification_fixed_point_witness :
    convertGoogleDriveUrl (driveUcBase ++ "ABC123".toList) =
        driveUcBase ++ "ABC123".toList ∧
    extractYouTubeId "dQw4w9WgXcQ".toList = "dQw4w9WgXcQ".toList :=
  ⟨classification_fixed_point.1 _ (by decide),
   classification_fixed_point.2 _ (by decide) (by decide)⟩

/-! ### Claim C10 — total id extraction and the unrecognized-provider path -/

theorem notNL_of_not_ws {c : Char} (h : isWSCh c = false) : notNL c = true := by
  simp only [isWSCh, Bool.or_eq_false_iff, decide_eq_false_iff_not] at h
  simp only [notNL, Bool.not_eq_true', decide_eq_false_iff_not]
  omega

theorem isEmpty_false_of_ne_nil {α : Type} {l : List α} (h : l ≠ []) :
    l.isEmpty = false := by
  cases l with
  | nil => exact absurd rfl h
  | cons a t => rfl

theorem trimL_video_prefixed (u : List Char) (hne : u ≠ [])
    (hall : ∀ c ∈ u, isWSCh c = false) :
    trimL (vidPre ++ ' ' :: u) = vidPre ++ ' ' :: u := by
  obtain ⟨d, hd⟩ := getLast?_exists_of_ne_nil hne
  refine trimL_eq_self_of_ends (fun c hc => ?_) (fun c hc => ?_)
  · simp only [vidPre, List.cons_append, List.head?_cons, Option.some.injEq] at hc
    rw [← hc]
    decide
  · rw [List.getLast?_append] at hc
    have h1 : (' ' :: u).getLast? = some d := by
      rw [show (' ' :: u) = [' '] ++ u from rfl, List.getLast?_append, hd]
      rfl
    rw [h1] at hc
    simp only [Option.or_some, Option.some.injEq] at hc
    rw [← hc]
    exact hall d (mem_of_getLast?_char hd)

theorem stripTypePre_video_prefixed (u : List Char) (hne : u ≠ [])
    (hall : ∀ c ∈ u, isWSCh c = false) :
    stripTypePre vidPre (vidPre ++ ' ' :: u) = some u := by
  have hdropWS : ((vidPre ++ ' ' :: u).drop vidPre.length).dropWhile isWSCh = u := by
    rw [List.drop_left, List.dropWhile_cons, if_pos (by decide)]
    exact dropWhile_eq_self_of_head fun c hc => by
      cases u with
      | nil => cases hc
      | cons a t =>
        simp only [List.head?_cons, Option.some.injEq] at hc
        rw [← hc]
        exact hall a (List.mem_cons_self _ _)
  have htake : u.takeWhile notNL = u :=
    takeWhile_all_eq fun c hc => notNL_of_not_ws (hall c hc)
  unfold stripTypePre
  rw [if_pos (isPrefCI_self_append _ _), hdropWS, htake, if_pos hne]
  rw [trimL_eq_self hall]

theorem detectUrlType_video_prefixed (u : List Char) (hne : u ≠ [])
    (hall : ∀ c ∈ u, isWSCh c = false) :
    detectUrlType (vidPre ++ ' ' :: u) = ⟨.video, u⟩ := by
  simp only [detectUrlType, trimL_video_prefixed u hne hall,
    stripTypePre_video_prefixed u hne hall]

theorem detectUrlType_yt_sniffed {u : List Char}
    (hws : ∀ c ∈ u, isWSCh c = false)
    (hvp : isPrefCI vidPre u = false) (hip : isPrefCI imgPre u = false)
    (hyc : containsSub ytComSub u = true) :
    detectUrlType u = ⟨.video, u⟩ := by
  have htrim : trimL u = u := trimL_eq_self hws
  have hvs : stripTypePre vidPre u = none := by
    unfold stripTypePre
    rw [if_neg (by rw [hvp]; exact Bool.false_ne_true)]
  have his : stripTypePre imgPre u = none := by
    unfold stripTypePre
    rw [if_neg (by rw [hip]; exact Bool.false_ne_true)]
  simp only [detectUrlType, htrim, hvs, his, hyc, Bool.true_or, if_pos]

/-- Claim C10 counterexample — the claimed consequence fails on the program:
the only consumer of the `video:` override, the bulk import, classifies
`video: https://vimeo.com/99` as a video but then skips the unknown
provider (page.tsx:1607-1610) instead of giving it its URL as `video_id`:
the line produces no item and the import adds nothing. -/
theorem video_prefixed_unknown_provider_skipped :
    detectUrlType "video: https://vimeo.com/99".toList =
      ⟨.video, "https://vimeo.com/99".toList⟩ ∧
    modalItemForLine [] 0 0 "video: https://vimeo.com/99".toList = none ∧
    (handleImportFromModal [] [] "video: https://vimeo.com/99".toList).items = [] := by
  refine ⟨by decide, by decide, by decide⟩

/-- Claim C10 (amended) — YouTube id extraction is total and falls back to
the input: any string matching none of the recognized patterns comes back
unchanged.  The claimed consequence is corrected: a `video:`-prefixed URL
from an unrecognized provider is skipped by the bulk import (no item is
created), and the identity fallback instead reaches `video_id` through URLs
sniffed as YouTube that match no id pattern — for such a line the import
creates a video item whose `video_id` is the entire URL, which is non-empty
and is persisted verbatim by the save path. -/
theorem extractYouTubeId_total_fallback :
    (∀ s : List Char,
      findCaptureAlt [ytWatchPat, ytBePat, ytEmbedPat] ytCls s = none →
      findCaptureAlt [ytShortsPat] ytCls s = none →
      extractYouTubeId s = s) ∧
    (∀ (u : List Char) (startPos i : Nat), u ≠ [] →
      (∀ c ∈ u, isWSCh c = false) →
      isPrefCI vidPre u = false → isPrefCI imgPre u = false →
      containsSub ytComSub u = true →
      findCaptureAlt [ytWatchPat, ytBePat, ytEmbedPat] ytCls u = none →
      findCaptureAlt [ytShortsPat] ytCls u = none →
      ∃ b, modalItemForLine [] startPos i u = some b ∧
        b.type = .video ∧ b.video_id = u ∧
        ∀ (title : List Char) (pub : Bool), trimL title ≠ [] →
          handleSaveDraft title [b] pub =
            .ok { title := trimL title, items := [b], is_published := pub }) := by
  refine ⟨fun s h1 h2 => ?_, fun u startPos i hne hws hvp hip hyc hno1 hno2 => ?_⟩
  · simp [extractYouTubeId, h1, h2]
  · have hext : extractYouTubeId u = u := by simp [extractYouTubeId, hno1, hno2]
    have hdet := detectUrlType_yt_sniffed hws hvp hip hyc
    have htu : trimL u = u := trimL_eq_self hws
    refine ⟨{ position := startPos + i + 1, type := .video, video_id := u, url := u },
      ?_, rfl, rfl, fun title pub ht => ?_⟩
    · simp only [modalItemForLine, hdet]
      rw [if_pos (by rw [hyc]; rfl)]
      simp [lookupMeta, hext]
    · have hvalid : isValidItem
          { position := startPos + i + 1, type := .video, video_id := u, url := u }
            = true := by
        simp only [isValidItem, htu, isEmpty_false_of_ne_nil hne, Bool.not_false]
      unfold handleSaveDraft
      rw [if_neg (by rw [isEmpty_false_of_ne_nil ht]; exact Bool.false_ne_true)]
      simp only [List.filter_cons, hvalid, if_pos rfl, List.filter_nil]
      rfl

/-- Witness for C10 (amended): `https://vimeo.com/99` matches no pattern
and extracts to itself; the YouTube playlist URL
`https://youtube.com/playlist?list=PL123` matches no id pattern either, so
the bulk import builds a video item carrying the entire URL as its
`video_id`, and that item is persisted. -/
theorem extractYouTubeId_total_fallback_witness :
    extractYouTubeId "https://vimeo.com/99".toList = "https://vimeo.com/99".toList ∧
    (∃ b, modalItemForLine [] 0 0 "https://youtube.com/playlist?list=PL123".toList
        = some b ∧
      b.type = .video ∧
      b.video_id = "https://youtube.com/playlist?list=PL123".toList ∧
      ∀ (title : List Char) (pub : Bool), trimL title ≠ [] →
        handleSaveDraft title [b] pub =
          .ok { title := trimL title, items := [b], is_published := pub }) :=
  ⟨extractYouTubeId_total_fallback.1 _ (by decide) (by decide),
   extractYouTubeId_total_fallback.2 "https://youtube.com/playlist?list=PL123".toList
     0 0 (by decide) (by decide) (by decide) (by decide) (by decide) (by decide)
     (by decide)⟩

/-! ### Claim C6 — proxy-wrap codec -/

theorem encodeURIComponent_ascii {u : List Char} (hu : ∀ d ∈ u, d.toNat < 128) :
    ∀ d ∈ encodeURIComponent u, d.toNat < 128 := by
  intro d hd
  rcases encodeURIComponent_mem hu hd with h | h | h | h
  · simp only [isUnreservedCh, Bool.or_eq_true, Bool.and_eq_true, decide_eq_true_eq] at h
    omega
  · omega
  · omega
  · omega

theorem wrapImageUrl_ascii {u : List Char} (hu : ∀ d ∈ u, d.toNat < 128) :
    ∀ d ∈ wrapImageUrl u, d.toNat < 128 := by
  intro d hd
  rcases List.mem_append.mp hd with h | h
  · have : ∀ e ∈ proxyPat, e.toNat < 128 := by decide
    exact this d h
  · exact encodeURIComponent_ascii hu d h

theorem findCaptureAlt_wrap {u : List Char} (hne : u ≠ [])
    (hu : ∀ d ∈ u, d.toNat < 128) :
    findCaptureAlt [proxyPat] notNL (wrapImageUrl u) = some (encodeURIComponent u) := by
  have hcap : (encodeURIComponent u).takeWhile notNL = encodeURIComponent u :=
    takeWhile_all_eq (encodeURIComponent_notNL hu)
  unfold wrapImageUrl
  rw [findCaptureAlt_head_hit (by decide) (by rw [hcap]; exact encodeURIComponent_ne_nil hne),
    hcap]

theorem unwrapImageUrl_of_none {u : List Char}
    (h : findCaptureAlt [proxyPat] notNL u = none) : unwrapImageUrl u = u := by
  simp [unwrapImageUrl, h]

theorem unwrap_wrap {u : List Char} (hne : u ≠ []) (hu : ∀ d ∈ u, d.toNat < 128)
    (hnp : findCaptureAlt [proxyPat] notNL u = none) :
    unwrapImageUrl (wrapImageUrl u) = u := by
  simp only [unwrapImageUrl, findCaptureAlt_wrap hne hu, decode_encode hu, hnp]

theorem unwrap_double_wrap {u : List Char} (hne : u ≠ []) (hu : ∀ d ∈ u, d.toNat < 128)
    (_hnp : findCaptureAlt [proxyPat] notNL u = none) :
    unwrapImageUrl (wrapImageUrl (wrapImageUrl u)) = u := by
  have hne1 : wrapImageUrl u ≠ [] := by
    unfold wrapImageUrl
    simp [proxyPat]
  have hu1 : ∀ d ∈ wrapImageUrl u, d.toNat < 128 := wrapImageUrl_ascii hu
  simp only [unwrapImageUrl, findCaptureAlt_wrap hne1 hu1, decode_encode hu1,
    findCaptureAlt_wrap hne hu, decode_encode hu]

/-- Claim C6 counterexample — `unwrap` is not idempotent on every value: on
the triple-wrapped legacy form of `http://a`, one unwrap yields the
once-wrapped URL and a second unwrap changes it again. -/
theorem unwrap_not_idempotent_counterexample :
    unwrapImageUrl
        (unwrapImageUrl
          (wrapImageUrl (wrapImageUrl (wrapImageUrl "http://a".toList)))) ≠
      unwrapImageUrl (wrapImageUrl (wrapImageUrl (wrapImageUrl "http://a".toList))) := by
  decide

/-- Claim C6 (amended) — for every nonempty ASCII URL `u` that is not itself
proxy-wrapped: `unwrap (wrap u) = u`; one unwrap recovers a double-wrapped
legacy value in a single call; and unwrap is idempotent on `u`, on its single
wrap and on its double wrap (the values the codec is specified over) — but
not on a triple wrap, where a second unwrap still changes the value. -/
theorem proxy_wrap_unwrap_roundtrip (u : List Char) (hne : u ≠ [])
    (hu : ∀ d ∈ u, d.toNat < 128)
    (hnp : findCaptureAlt [proxyPat] notNL u = none) :
    unwrapImageUrl (wrapImageUrl u) = u ∧
    unwrapImageUrl (wrapImageUrl (wrapImageUrl u)) = u ∧
    unwrapImageUrl (unwrapImageUrl u) = unwrapImageUrl u ∧
    unwrapImageUrl (unwrapImageUrl (wrapImageUrl u)) =
      unwrapImageUrl (wrapImageUrl u) ∧
    unwrapImageUrl (unwrapImageUrl (wrapImageUrl (wrapImageUrl u))) =
      unwrapImageUrl (wrapImageUrl (wrapImageUrl u)) := by
  have h1 := unwrap_wrap hne hu hnp
  have h2 := unwrap_double_wrap hne hu hnp
  have h0 := unwrapImageUrl_of_none hnp
  exact ⟨h1, h2, by rw [h0, h0], by rw [h1, h0], by rw [h2, h0]⟩

/-- Witness for C6: the concrete URL `http://a` wraps and unwraps as the
amended claim states. -/
theorem proxy_wrap_unwrap_roundtrip_witness :
    unwrapImageUrl (wrapImageUrl "http://a".toList) = "http://a".toList ∧
    unwrapImageUrl (wrapImageUrl (wrapImageUrl "http://a".toList)) = "http://a".toList ∧
    unwrapImageUrl (unwrapImageUrl "http://a".toList) =
      unwrapImageUrl "http://a".toList ∧
    unwrapImageUrl (unwrapImageUrl (wrapImageUrl "http://a".toList)) =
      unwrapImageUrl (wrapImageUrl "http://a".toList) ∧
    unwrapImageUrl (unwrapImageUrl (wrapImageUrl (wrapImageUrl "http://a".toList))) =
      unwrapImageUrl (wrapImageUrl (wrapImageUrl "http://a".toList)) :=
  proxy_wrap_unwrap_roundtrip "http://a".toList (by decide) (by decide) (by decide)

/-! ### Claim C2 — the 50-item cap across the import operations -/

theorem driveItemForFile_isSome (n i : Nat) (f : DriveFile) :
    (driveItemForFile n i f).isSome = keepsDriveFile f := by
  simp only [driveItemForFile, keepsDriveFile]
  cases htype : (detectUrlType f.url).type with
  | video =>
    by_cases hc : containsSub driveSub (detectUrlType f.url).processedUrl = true
    · rw [if_pos hc, hc]
      rfl
    · rw [if_neg hc]
      rw [Bool.eq_false_iff.mpr hc]
      rfl
  | image => rfl

theorem mapIdxOpt_drive_length (n : Nat) (files : List DriveFile) :
    ∀ i, (mapIdxOpt (driveItemForFile n) i files).length =
      (files.filter keepsDriveFile).length := by
  induction files with
  | nil => intro i; rfl
  | cons f rest ih =>
    intro i
    simp only [mapIdxOpt]
    cases hd : driveItemForFile n i f with
    | some b =>
      have hk : keepsDriveFile f = true := by
        rw [← driveItemForFile_isSome n i f, hd]
        rfl
      rw [List.filter_cons, if_pos hk]
      simp [ih (i + 1)]
    | none =>
      have hk : keepsDriveFile f = false := by
        rw [← driveItemForFile_isSome n i f, hd]
        rfl
      rw [List.filter_cons, if_neg (by simp [hk])]
      exact ih (i + 1)

/-- Claim C2 counterexample — the Drive folder import performs no cap check:
appending one image file to a 50-item list yields 51 items (over
`MAX_ITEMS`), instead of rejecting the import and leaving the list
unchanged. -/
theorem import_cap_counterexample :
    ((handleImportDriveFolder
        ((List.range 50).map fun i =>
          ({ position := i + 1, type := .image, image_url := ['x'] } : SequenceItem))
        [{ url := "https://example.com/a.png".toList, name := ['a'],
           mimeType := [] }]).items.length = 51) ∧
    ((List.range 50).map fun i =>
      ({ position := i + 1, type := .image, image_url := ['x'] } : SequenceItem)).length
        = 50 ∧
    51 > MAX_ITEMS := by
  refine ⟨by decide, by decide, by decide⟩

/-- Claim C2 (amended) — only the bulk URL paste import enforces the 50-item
cap: when existing + pasted lines would exceed `MAX_ITEMS` it rejects the
whole paste with the count-aware message and leaves the item list unchanged;
the Drive folder import appends one item per accepted file with no cap
check, so the total can exceed 50. -/
theorem import_cap_modal_only
    (meta : List (List Char × VideoMetadata)) (items : List SequenceItem)
    (s : List Char) (files : List DriveFile)
    (hne : trimL s ≠ [])
    (hover : items.length + ((splitSep s).filter (fun l => trimL l ≠ [])).length >
      MAX_ITEMS) :
    handleImportFromModal meta items s =
      ⟨items, some (capMessage items.length
        ((splitSep s).filter (fun l => trimL l ≠ [])).length)⟩ ∧
    (handleImportDriveFolder items files).items.length =
      items.length + (files.filter keepsDriveFile).length := by
  constructor
  · simp only [handleImportFromModal]
    rw [if_neg hne, if_pos hover]
  · simp only [handleImportDriveFolder, List.length_append]
    rw [mapIdxOpt_drive_length items.length files 0]

/-- Witness for C2 (amended): pasting two URLs onto a concrete 50-item list
is rejected in full with the count-aware message, and the Drive import
appends its single file regardless of the cap. -/
theorem import_cap_modal_only_witness :
    handleImportFromModal []
        ((List.range 50).map fun i =>
          ({ position := i + 1, type := .image, image_url := ['x'] } : SequenceItem))
        "https://a.com/1.png,https://a.com/2.png".toList =
      ⟨(List.range 50).map fun i =>
          ({ position := i + 1, type := .image, image_url := ['x'] } : SequenceItem),
        some (capMessage 50 2)⟩ ∧
    (handleImportDriveFolder
        ((List.range 50).map fun i =>
          ({ position := i + 1, type := .image, image_url := ['x'] } : SequenceItem))
        [{ url := "https://example.com/a.png".toList, name := ['a'],
           mimeType := [] }]).items.length =
      ((List.range 50).map fun i =>
        ({ position := i + 1, type := .image, image_url := ['x'] } : SequenceItem)).length +
        ([({ url := "https://example.com/a.png".toList, name := ['a'],
             mimeType := [] } : DriveFile)].filter keepsDriveFile).length := by
  have h := import_cap_modal_only []
      ((List.range 50).map fun i =>
        ({ position := i + 1, type := .image, image_url := ['x'] } : SequenceItem))
      "https://a.com/1.png,https://a.com/2.png".toList
      [{ url := "https://example.com/a.png".toList, name := ['a'], mimeType := [] }]
      (by decide) (by decide)
  exact ⟨h.1.trans (by decide), h.2⟩

/-! ### Claim C8 — export and bulk re-import round trip -/

theorem mem_dropWhile_of_false {p : Char → Bool} {s : List Char} {c : Char}
    (hc : c ∈ s) (hp : p c = false) : c ∈ s.dropWhile p := by
  induction s with
  | nil => cases hc
  | cons a t ih =>
    rw [List.dropWhile_cons]
    by_cases ha : p a = true
    · rw [if_pos ha]
      rcases List.mem_cons.mp hc with rfl | hmem
      · rw [ha] at hp
        cases hp
      · exact ih hmem
    · rw [if_neg ha]
      exact hc

theorem trimL_ne_nil_of_mem {s : List Char} {c : Char} (hc : c ∈ s)
    (hnw : isWSCh c = false) : trimL s ≠ [] := by
  unfold trimL
  have h1 : c ∈ s.dropWhile isWSCh := mem_dropWhile_of_false hc hnw
  have h2 : c ∈ (s.dropWhile isWSCh).reverse := List.mem_reverse.mpr h1
  have h3 : c ∈ ((s.dropWhile isWSCh).reverse.dropWhile isWSCh) :=
    mem_dropWhile_of_false h2 hnw
  have h4 : c ∈ ((s.dropWhile isWSCh).reverse.dropWhile isWSCh).reverse :=
    List.mem_reverse.mpr h3
  exact List.ne_nil_of_mem h4

theorem watchBase_decomp : watchBase = "https://".toList ++ ytWatchPat := by decide

theorem detectUrlType_watch {id : List Char} (_hne : id ≠ [])
    (hall : ∀ c ∈ id, isIdCh c = true) :
    detectUrlType (watchBase ++ id) = ⟨.video, watchBase ++ id⟩ := by
  have hwb : ∀ c ∈ watchBase, isWSCh c = false := by decide
  have hnws : ∀ c ∈ watchBase ++ id, isWSCh c = false := by
    intro c hc
    rcases List.mem_append.mp hc with h | h
    · exact hwb c h
    · exact idCh_not_ws (hall c h)
  have htrim : trimL (watchBase ++ id) = watchBase ++ id := trimL_eq_self hnws
  have hvid : stripTypePre vidPre (watchBase ++ id) = none := by
    have : isPrefCI vidPre (watchBase ++ id) = false := by
      rw [show watchBase ++ id =
        'h' :: ("ttps://youtube.com/watch?v=".toList ++ id) from rfl]
      exact isPrefCI_head_ne (by decide)
    unfold stripTypePre
    rw [if_neg (by rw [this]; exact Bool.false_ne_true)]
  have himg : stripTypePre imgPre (watchBase ++ id) = none := by
    have : isPrefCI imgPre (watchBase ++ id) = false := by
      rw [show watchBase ++ id =
        'h' :: ("ttps://youtube.com/watch?v=".toList ++ id) from rfl]
      exact isPrefCI_head_ne (by decide)
    unfold stripTypePre
    rw [if_neg (by rw [this]; exact Bool.false_ne_true)]
  have hcontains : containsSub ytComSub (watchBase ++ id) = true := by
    rw [watchBase_decomp, List.append_assoc]
    exact containsSub_append_right _
      (containsSub_of_isPref (isPref_extend _ (by decide)))
  simp only [detectUrlType, htrim, hvid, himg, hcontains, Bool.true_or, if_pos]

theorem extractYouTubeId_watch {id : List Char} (hne : id ≠ [])
    (hall : ∀ c ∈ id, isIdCh c = true) :
    extractYouTubeId (watchBase ++ id) = id := by
  have hcap : id.takeWhile ytCls = id :=
    takeWhile_all_eq fun c hc => idCh_ytCls (hall c hc)
  have hskip : findCaptureAlt [ytWatchPat, ytBePat, ytEmbedPat] ytCls
      ("https://".toList ++ (ytWatchPat ++ id)) =
      findCaptureAlt [ytWatchPat, ytBePat, ytEmbedPat] ytCls (ytWatchPat ++ id) :=
    findCaptureAlt_append_skip (by decide)
  have hhit : findCaptureAlt [ytWatchPat, ytBePat, ytEmbedPat] ytCls
      (ytWatchPat ++ id) = some (id.takeWhile ytCls) :=
    findCaptureAlt_head_hit (by decide) (by rw [hcap]; exact hne)
  rw [watchBase_decomp, List.append_assoc]
  simp only [extractYouTubeId, hskip, hhit, hcap]

theorem detectUrlType_safe_image {u : List Char} (hsafe : safeImageUrl u = true) :
    detectUrlType u = ⟨.image, u⟩ := by
  simp only [safeImageUrl, Bool.and_eq_true, Bool.not_eq_true', List.all_eq_true,
    beq_iff_eq] at hsafe
  obtain ⟨⟨⟨⟨⟨⟨_, hchars⟩, hvp⟩, hip⟩, hyc⟩, hyb⟩, _⟩ := hsafe
  have hnws : ∀ c ∈ u, isWSCh c = false := fun c hc => by
    have := hchars c hc
    simp only [Bool.and_eq_true, Bool.not_eq_true'] at this
    exact this.2
  have htrim : trimL u = u := trimL_eq_self hnws
  have hvs : stripTypePre vidPre u = none := by
    unfold stripTypePre
    rw [if_neg (by rw [hvp]; exact Bool.false_ne_true)]
  have his : stripTypePre imgPre u = none := by
    unfold stripTypePre
    rw [if_neg (by rw [hip]; exact Bool.false_ne_true)]
  simp only [detectUrlType, htrim, hvs, his, hyc, hyb, Bool.or_self, Bool.false_eq_true,
    if_false, ite_self]

theorem exportUrl_safe_video {it : SequenceItem} (htype : it.type = .video)
    (hsafe : safeVideoItem it = true) : exportUrl it = watchBase ++ it.video_id := by
  simp only [safeVideoItem, Bool.and_eq_true, beq_iff_eq] at hsafe
  obtain ⟨⟨_, _⟩, hurl⟩ := hsafe
  simp only [exportUrl, htype, hurl]
  rw [if_pos (by simp [watchBase])]

theorem modalItemForLine_safe (startPos i : Nat) (it : SequenceItem)
    (hsafe : safeRoundTripItem it = true) :
    ∃ b, modalItemForLine [] startPos i (exportUrl it) = some b ∧ itemEquiv it b = true := by
  unfold safeRoundTripItem at hsafe
  cases htype : it.type with
  | video =>
    rw [htype] at hsafe
    have hexp := exportUrl_safe_video htype hsafe
    simp only [safeVideoItem, Bool.and_eq_true, beq_iff_eq, List.all_eq_true] at hsafe
    obtain ⟨⟨hlen, hall⟩, _⟩ := hsafe
    have hne : it.video_id ≠ [] := by
      intro hnil
      rw [hnil] at hlen
      simp at hlen
    have hdet := detectUrlType_watch hne hall
    have hext := extractYouTubeId_watch hne hall
    refine ⟨{ position := startPos + i + 1, type := .video, video_id := it.video_id,
              url := watchBase ++ it.video_id }, ?_, ?_⟩
    · rw [hexp]
      simp only [modalItemForLine, hdet]
      have hcontains : containsSub ytComSub (watchBase ++ it.video_id) = true := by
        rw [watchBase_decomp, List.append_assoc]
        exact containsSub_append_right _
          (containsSub_of_isPref (isPref_extend _ (by decide)))
      rw [if_pos (by rw [hcontains]; rfl)]
      simp [lookupMeta, hext]
    · simp [itemEquiv, htype]
  | image =>
    rw [htype] at hsafe
    have hdet := detectUrlType_safe_image hsafe
    have hconv : convertGoogleDriveUrl it.image_url = it.image_url := by
      simp only [safeImageUrl, Bool.and_eq_true, beq_iff_eq] at hsafe
      exact hsafe.2
    have hexp : exportUrl it = it.image_url := by
      simp [exportUrl, htype]
    refine ⟨{ position := startPos + i + 1, type := .image, image_url := it.image_url,
              alt_text := [], narration := [] }, ?_, ?_⟩
    · rw [hexp]
      simp only [modalItemForLine, hdet]
      simp [hconv]
    · simp [itemEquiv, htype]

theorem exportUrl_line_props {it : SequenceItem} (hsafe : safeRoundTripItem it = true) :
    exportUrl it ≠ [] ∧ (∀ c ∈ exportUrl it, isWSCh c = false) ∧
      (∀ c ∈ exportUrl it, isSepCh c = false) := by
  unfold safeRoundTripItem at hsafe
  cases htype : it.type with
  | video =>
    rw [htype] at hsafe
    have hexp := exportUrl_safe_video htype hsafe
    simp only [safeVideoItem, Bool.and_eq_true, beq_iff_eq, List.all_eq_true] at hsafe
    obtain ⟨⟨_, hall⟩, _⟩ := hsafe
    have hwbws : ∀ c ∈ watchBase, isWSCh c = false := by decide
    have hwbsep : ∀ c ∈ watchBase, isSepCh c = false := by decide
    rw [hexp]
    refine ⟨by simp [watchBase], fun c hc => ?_, fun c hc => ?_⟩
    · rcases List.mem_append.mp hc with h | h
      · exact hwbws c h
      · exact idCh_not_ws (hall c h)
    · rcases List.mem_append.mp hc with h | h
      · exact hwbsep c h
      · exact idCh_not_sep (hall c h)
  | image =>
    rw [htype] at hsafe
    have hexp : exportUrl it = it.image_url := by
      simp [exportUrl, htype]
    simp only [safeImageUrl, Bool.and_eq_true, Bool.not_eq_true', List.all_eq_true,
      beq_iff_eq] at hsafe
    obtain ⟨⟨⟨⟨⟨⟨hni, hchars⟩, _⟩, _⟩, _⟩, _⟩, _⟩ := hsafe
    rw [hexp]
    refine ⟨?_, fun c hc => ?_, fun c hc => ?_⟩
    · intro hnil
      rw [hnil] at hni
      cases hni
    · have := hchars c hc
      simp only [Bool.and_eq_true, Bool.not_eq_true'] at this
      exact this.2
    · have := hchars c hc
      simp only [Bool.and_eq_true, Bool.not_eq_true'] at this
      exact this.1

theorem mem_joinNL_head {l0 : List Char} {rest : List (List Char)} {c : Char}
    (hc : c ∈ l0) : c ∈ joinNL (l0 :: rest) := by
  cases rest with
  | nil => simpa [joinNL] using hc
  | cons m t => simp [joinNL, List.mem_append, hc]

theorem reimport_equiv (startPos : Nat) :
    ∀ items : List SequenceItem, (∀ it ∈ items, safeRoundTripItem it = true) →
    ∀ i, listEquiv items
      (mapIdxOpt (modalItemForLine [] startPos) i (items.map exportUrl)) = true := by
  intro items
  induction items with
  | nil => intro _ i; rfl
  | cons it rest ih =>
    intro hsafe i
    obtain ⟨b, hb, hequiv⟩ :=
      modalItemForLine_safe startPos i it (hsafe it (List.mem_cons_self _ _))
    have hrest := ih (fun x hx => hsafe x (List.mem_cons_of_mem _ hx)) (i + 1)
    simp only [List.map_cons, mapIdxOpt, hb]
    simp only [listEquiv, List.length_cons, List.zip_cons_cons, List.all_cons,
      Bool.and_eq_true, beq_iff_eq] at hrest ⊢
    exact ⟨by omega, hequiv, hrest.2⟩

/-- Claim C8 (amended) — for every item list of at most 50 round-trip-safe
items (videos storing the canonical watch URL of their 11-character id;
images whose URL is whitespace/separator-free, not provider-sniffed as
YouTube, not a manual override and a fixed point of the Drive rewrite),
exporting the list and re-importing the text into an empty editor yields an
equivalent list: same length, same order, same type and same discriminating
content field per item. -/
theorem export_reimport_equivalent (items : List SequenceItem)
    (hcap : items.length ≤ MAX_ITEMS)
    (hsafe : ∀ it ∈ items, safeRoundTripItem it = true) :
    listEquiv items (handleImportFromModal [] [] (handleExportLinks items)).items
      = true := by
  cases items with
  | nil => rfl
  | cons it0 rest =>
    have hprops : ∀ l ∈ (it0 :: rest).map exportUrl,
        l ≠ [] ∧ (∀ c ∈ l, isWSCh c = false) ∧ (∀ c ∈ l, isSepCh c = false) := by
      intro l hl
      obtain ⟨x, hx, rfl⟩ := List.mem_map.mp hl
      exact exportUrl_line_props (hsafe x hx)
    have hfilter : ((it0 :: rest).map exportUrl).filter (fun u => u ≠ []) =
        (it0 :: rest).map exportUrl :=
      List.filter_eq_self.mpr fun a ha => by simp [(hprops a ha).1]
    have hexp : handleExportLinks (it0 :: rest) =
        joinNL ((it0 :: rest).map exportUrl) := by
      unfold handleExportLinks
      rw [hfilter]
    have hl0 : exportUrl it0 ∈ (it0 :: rest).map exportUrl :=
      List.mem_map.mpr ⟨it0, List.mem_cons_self _ _, rfl⟩
    have hl0props := hprops _ hl0
    have htrimne : trimL (joinNL ((it0 :: rest).map exportUrl)) ≠ [] := by
      cases hhead : exportUrl it0 with
      | nil => exact absurd hhead hl0props.1
      | cons c0 t0 =>
        have hc0mem : c0 ∈ exportUrl it0 := by rw [hhead]; exact List.mem_cons_self _ _
        have hc0 : c0 ∈ joinNL ((it0 :: rest).map exportUrl) := by
          rw [List.map_cons]
          exact mem_joinNL_head hc0mem
        exact trimL_ne_nil_of_mem hc0 (hl0props.2.1 c0 hc0mem)
    have hsplit : splitSep (joinNL ((it0 :: rest).map exportUrl)) =
        (it0 :: rest).map exportUrl :=
      splitSep_joinNL (by simp) fun l hl => (hprops l hl).2.2
    have hlines : ((it0 :: rest).map exportUrl).filter (fun l => trimL l ≠ []) =
        (it0 :: rest).map exportUrl :=
      List.filter_eq_self.mpr fun a ha => by
        rw [trimL_eq_self (hprops a ha).2.1]
        simp [(hprops a ha).1]
    have hcap2 : ¬(List.length ([] : List SequenceItem) +
        ((it0 :: rest).map exportUrl).length > MAX_ITEMS) := by
      simp only [List.length_nil, List.length_map, List.length_cons]
      simp only [List.length_cons] at hcap
      omega
    rw [hexp]
    simp only [handleImportFromModal]
    rw [if_neg htrimne, hsplit, hlines, if_neg hcap2]
    simp only [List.nil_append]
    exact reimport_equiv 0 (it0 :: rest) hsafe 0

/-- Claim C8 counterexample — export/re-import does not round-trip every
valid item list: a Drive video (valid: non-empty `video_id`) exports as its
Drive URL, which `detectUrlType` re-classifies as an image, so the
re-imported list has an image where the original had a video. -/
theorem export_reimport_counterexample :
    ([({ position := 1, type := .video, video_id := "ABC".toList,
         url := "https://drive.google.com/file/d/ABC/view".toList } :
        SequenceItem)].all isValidItem = true) ∧
    ((handleImportFromModal [] []
        (handleExportLinks
          [{ position := 1, type := .video, video_id := "ABC".toList,
             url := "https://drive.google.com/file/d/ABC/view".toList }])).items.map
        (·.type) = [ItemType.image]) ∧
    (listEquiv
        [{ position := 1, type := .video, video_id := "ABC".toList,
           url := "https://drive.google.com/file/d/ABC/view".toList }]
        (handleImportFromModal [] []
          (handleExportLinks
            [{ position := 1, type := .video, video_id := "ABC".toList,
               url := "https://drive.google.com/file/d/ABC/view".toList }])).items
      = false) := by
  refine ⟨by decide, by decide, by decide⟩

/-- Witness for C8 (amended): a concrete two-item list — a canonical YouTube
video and a plain image URL — survives the export/re-import round trip. -/
theorem export_reimport_equivalent_witness :
    listEquiv
        [{ position := 1, type := .video, video_id := "dQw4w9WgXcQ".toList,
           url := watchBase ++ "dQw4w9WgXcQ".toList },
         { position := 2, type := .image,
           image_url := "https://example.com/pic.png".toList }]
        (handleImportFromModal [] []
          (handleExportLinks
            [{ position := 1, type := .video, video_id := "dQw4w9WgXcQ".toList,
               url := watchBase ++ "dQw4w9WgXcQ".toList },
             { position := 2, type := .image,
               image_url := "https://example.com/pic.png".toList }])).items = true :=
  export_reimport_equivalent _ (by decide) (by decide)
